import Mathlib

/-!
Verification of the onset-detection core of `goaubio-onset` against its
natural-language specification.

The Go source is shallowly embedded: float64 values are modelled by `ℚ`
where the code only adds, multiplies, divides and compares (filter, median
selection, peak interpolation, onset state machine), and by `ℝ` where the
code uses transcendental functions (`math.Log`, `math.Cos`, `math.Sqrt`,
`math.Log10` in the spectral descriptors and the energy computation).
Go slices are `List`s; `s[i]` is `List.getD i 0` and `s[i] = v` is
`List.set`; a Go index-out-of-range panic is modelled by `Option.none`
where it is reachable. `uint` counters are `ℕ`.
-/

namespace GoAubio

/-! ## Slice access helpers (Go `arr[i]` read, write, and swap) -/

/-- Read `arr[i]` (Go slice read; out of range is unreachable in the modelled
code paths, the default `0` is never exercised under the proved bounds). -/
def getE {α : Type} [Zero α] (l : List α) (i : ℕ) : α := l.getD i 0

/-- The Go parallel assignment `arr[i], arr[j] = arr[j], arr[i]`. -/
def swapE {α : Type} [Zero α] (l : List α) (i j : ℕ) : List α :=
  (l.set i (getE l j)).set j (getE l i)

theorem getE_set_self {α : Type} [Zero α] (l : List α) (i : ℕ) (v : α)
    (h : i < l.length) : getE (l.set i v) i = v := by
  have h' : i < (l.set i v).length := by simpa using h
  rw [getE, List.getD_eq_getElem _ _ h', List.getElem_set_self]

theorem getE_set_ne {α : Type} [Zero α] (l : List α) {i j : ℕ} (v : α)
    (h : i ≠ j) : getE (l.set i v) j = getE l j := by
  rcases lt_or_le j l.length with hj | hj
  · rw [getE, getE, List.getD_eq_getElem _ _ (by simpa using hj),
      List.getD_eq_getElem _ _ hj]
    exact List.getElem_set_ne h _
  · rw [getE, getE, List.getD_eq_default _ _ (by simpa using hj),
      List.getD_eq_default _ _ hj]

@[simp] theorem length_swapE {α : Type} [Zero α] (l : List α) (i j : ℕ) :
    (swapE l i j).length = l.length := by
  simp [swapE]

theorem getE_swapE_right {α : Type} [Zero α] (l : List α) (i j : ℕ)
    (hj : j < l.length) : getE (swapE l i j) j = getE l i := by
  simp only [swapE]
  exact getE_set_self _ _ _ (by simpa using hj)

theorem getE_swapE_left {α : Type} [Zero α] (l : List α) {i j : ℕ}
    (hi : i < l.length) (hij : i ≠ j) : getE (swapE l i j) i = getE l j := by
  simp only [swapE]
  rw [getE_set_ne _ _ (Ne.symm hij)]
  exact getE_set_self _ _ _ hi

theorem getE_swapE_other {α : Type} [Zero α] (l : List α) {i j k : ℕ}
    (hik : i ≠ k) (hjk : j ≠ k) : getE (swapE l i j) k = getE l k := by
  simp only [swapE]
  rw [getE_set_ne _ _ hjk, getE_set_ne _ _ hik]

theorem set_getE_self {α : Type} [Zero α] (l : List α) (i : ℕ) :
    l.set i (getE l i) = l := by
  rcases lt_or_le i l.length with hi | hi
  · apply List.ext_getElem (by simp)
    intro k hk hk'
    rcases eq_or_ne i k with rfl | hne
    · rw [List.getElem_set_self, getE, List.getD_eq_getElem _ _ hi]
    · exact List.getElem_set_ne hne _
  · exact List.set_eq_of_length_le hi

theorem getE_eq_getElem {α : Type} [Zero α] (l : List α) {i : ℕ}
    (h : i < l.length) : getE l i = l[i] := List.getD_eq_getElem _ _ h

theorem count_swapE (l : List ℚ) (i j : ℕ) (hi : i < l.length)
    (hj : j < l.length) (a : ℚ) : (swapE l i j).count a = l.count a := by
  rcases eq_or_ne i j with rfl | hij
  · simp [swapE, set_getE_self]
  · have h1 : (l.set i (getE l j)).count a =
        (l.count a - if l[i] = a then 1 else 0) + if l[j] = a then 1 else 0 := by
      have := List.count_set (getE l j) a l i hi
      simpa [getE_eq_getElem l hj] using this
    have h2 : ((l.set i (getE l j)).set j (getE l i)).count a =
        ((l.set i (getE l j)).count a - if l[j] = a then 1 else 0) +
          if l[i] = a then 1 else 0 := by
      have := List.count_set (getE l i) a (l.set i (getE l j)) j (by simpa using hj)
      simpa [getE_eq_getElem l hi, List.getElem_set_ne hij] using this
    have hcount_i : (if l[i] = a then 1 else 0) ≤ l.count a := by
      by_cases heq : l[i] = a
      · have hmem : a ∈ l := heq ▸ List.getElem_mem hi
        simpa [heq] using List.count_pos_iff.mpr hmem
      · simp [heq]
    rw [swapE, h2, h1]
    omega

theorem swapE_perm (l : List ℚ) (i j : ℕ) (hi : i < l.length)
    (hj : j < l.length) : (swapE l i j).Perm l := by
  rw [List.perm_iff_count]
  intro a
  exact count_swapE l i j hi hj a

/-! ## Recursive filter (src/filter.go) -/

/-- State of a `Filter` (src/filter.go lines 4-10): order, feedback `A`,
feedforward `B`, input history `X`, output history `Y`. -/
structure Filter where
  order : ℕ
  A : List ℚ
  B : List ℚ
  X : List ℚ
  Y : List ℚ
  deriving DecidableEq

/-- Embeds `NewFilter` (src/filter.go lines 13-25).  The Go code allocates
four zero slices of length `order` and then writes `f.A[0] = 1.0` and
`f.B[0] = 1.0`; for `order = 0` those writes index an empty slice and panic
at runtime, modelled here by `none`. -/
def NewFilter (order : ℕ) : Option Filter :=
  if order = 0 then none
  else some
    { order := order
      A := (List.replicate order 0).set 0 1
      B := (List.replicate order 0).set 0 1
      X := List.replicate order 0
      Y := List.replicate order 0 }

/-- Shift loop `for l := f.Order - 1; l > 0; l-- { X[l] = X[l-1] }`: every
entry moves one slot to the right, entry 0 stays. -/
def shiftHist (l : List ℚ) : List ℚ :=
  match l with
  | [] => []
  | a :: rest => a :: (a :: rest).dropLast

/-- One iteration of the `Filter.Do` loop body (src/filter.go lines 42-59)
for input sample `x`: write `X[0] = x`, accumulate
`Y[0] = B[0]*X[0] + Σ_{l=1}^{order-1} (B[l]*X[l] - A[l]*Y[l])`
(the Go code interleaves the `+=`/`-=` pair per `l`), emit `Y[0]`, shift
both histories. -/
def filterStep (f : Filter) (x : ℚ) : ℚ × Filter :=
  let X := x :: f.X.tail
  let y := (List.range' 1 (f.order - 1)).foldl
    (fun acc l => acc + getE f.B l * getE X l - getE f.A l * getE f.Y l)
    (getE f.B 0 * x)
  let Y := y :: f.Y.tail
  (y, { f with X := shiftHist X, Y := shiftHist Y })

/-- Embeds `Filter.Do` (src/filter.go lines 40-61): run `filterStep` over
the input buffer in order, returning the filtered buffer (the in-place
mutation of `in.Data`) and the final filter state. -/
def Filter.Do (f : Filter) : List ℚ → List ℚ × Filter
  | [] => ([], f)
  | x :: rest =>
    let r := filterStep f x
    let rs := Filter.Do r.2 rest
    (r.1 :: rs.1, rs.2)

/-- Embeds `Filter.Reset` (src/filter.go lines 87-92): zero both histories. -/
def Filter.Reset (f : Filter) : Filter :=
  { f with X := f.X.map (fun _ => 0), Y := f.Y.map (fun _ => 0) }

/-- Embeds `Filter.DoFiltFilt` (src/filter.go lines 64-84): filter forward,
reset, mirror into the scratch buffer (`tmp.Data[length-j-1] = in.Data[j]`,
i.e. reverse), filter again, reset, mirror back.  The scratch buffer is
assumed to have the input's length, as in the only in-repo caller
(`PeakPicker.Do`, which passes two buffers of size `WinPost+WinPre+1`). -/
def Filter.DoFiltFilt (f : Filter) (inp : List ℚ) : List ℚ × Filter :=
  let r1 := Filter.Do f inp
  let f1 := Filter.Reset r1.2
  let tmp := r1.1.reverse
  let r2 := Filter.Do f1 tmp
  let f2 := Filter.Reset r2.2
  (r2.1.reverse, f2)

/-! ### Fresh filters have identity coefficients, and identity coefficients
make `Do` (hence `DoFiltFilt`) a no-op. -/

/-- A filter whose coefficient slices are `B = [1,0,...]`, `A = [1,0,...]`
(the state `NewFilter` produces, for any positive order). -/
def IdentCoeffs (f : Filter) : Prop :=
  getE f.B 0 = 1 ∧ ∀ l, 1 ≤ l → getE f.B l = 0 ∧ getE f.A l = 0

theorem foldl_eq_of_forall_zero (L : List ℕ) (g h : ℕ → ℚ)
    (hg : ∀ l ∈ L, g l = 0) (hh : ∀ l ∈ L, h l = 0) (acc : ℚ) :
    L.foldl (fun a l => a + g l - h l) acc = acc := by
  induction L generalizing acc with
  | nil => rfl
  | cons x xs ih =>
    have hx : g x = 0 := hg x (by simp)
    have hx' : h x = 0 := hh x (by simp)
    simp only [List.foldl_cons, hx, hx', add_zero, sub_zero]
    exact ih (fun l hl => hg l (by simp [hl])) (fun l hl => hh l (by simp [hl])) acc

theorem filterStep_ident (f : Filter) (x : ℚ) (hf : IdentCoeffs f) :
    (filterStep f x).1 = x ∧
      (filterStep f x).2.B = f.B ∧ (filterStep f x).2.A = f.A ∧
      (filterStep f x).2.order = f.order := by
  obtain ⟨h0, hrest⟩ := hf
  have hy : (filterStep f x).1 = x := by
    show (List.range' 1 (f.order - 1)).foldl _ _ = x
    have := foldl_eq_of_forall_zero (List.range' 1 (f.order - 1))
      (fun l => getE f.B l * getE (x :: f.X.tail) l)
      (fun l => getE f.A l * getE f.Y l)
      (fun l hl => by
        have h1 : 1 ≤ l := (List.mem_range'_1.mp hl).1
        show getE f.B l * _ = 0
        rw [(hrest l h1).1, zero_mul])
      (fun l hl => by
        have h1 : 1 ≤ l := (List.mem_range'_1.mp hl).1
        show getE f.A l * _ = 0
        rw [(hrest l h1).2, zero_mul])
      (getE f.B 0 * x)
    rw [this, h0, one_mul]
  exact ⟨hy, rfl, rfl, rfl⟩

theorem filterDo_ident (xs : List ℚ) : ∀ f : Filter, IdentCoeffs f →
    (Filter.Do f xs).1 = xs ∧ IdentCoeffs (Filter.Do f xs).2 := by
  induction xs with
  | nil => exact fun f hf => ⟨rfl, hf⟩
  | cons x rest ih =>
    intro f hf
    obtain ⟨hy, hB, hA, _⟩ := filterStep_ident f x hf
    have hf' : IdentCoeffs (filterStep f x).2 := by
      rw [IdentCoeffs, hB, hA]; exact hf
    obtain ⟨h1, h2⟩ := ih (filterStep f x).2 hf'
    refine ⟨?_, h2⟩
    show (filterStep f x).1 :: (Filter.Do (filterStep f x).2 rest).1 = x :: rest
    rw [hy, h1]

theorem identCoeffs_reset (f : Filter) (hf : IdentCoeffs f) :
    IdentCoeffs (Filter.Reset f) := hf

theorem newFilter_identCoeffs (order : ℕ) (h : 1 ≤ order) (f : Filter)
    (hf : NewFilter order = some f) : IdentCoeffs f := by
  rw [NewFilter, if_neg (by omega)] at hf
  obtain rfl := Option.some_injective _ hf
  constructor
  · show getE ((List.replicate order (0 : ℚ)).set 0 1) 0 = 1
    exact getE_set_self _ _ _ (by simpa using h)
  · intro l hl
    constructor <;>
    · show getE ((List.replicate order (0 : ℚ)).set 0 1) l = 0
      rw [getE_set_ne _ _ (by omega)]
      rcases lt_or_le l order with hlo | hlo
      · rw [getE_eq_getElem _ (by simpa using hlo)]
        simp
      · rw [getE, List.getD_eq_default _ _ (by simpa using hlo)]

/-! ## Onset.SetCompression (src/unnamed/part_003 lines 138-144) -/

/-- The two fields of `Onset` that `SetCompression` touches. -/
structure CompressionState where
  LambdaCompression : ℚ
  ApplyCompression : Bool
  deriving DecidableEq

/-- Embeds `Onset.SetCompression`: a negative lambda returns immediately
(no mutation, no error); otherwise `LambdaCompression = lambda` and
`ApplyCompression = lambda > 0`. -/
def SetCompression (st : CompressionState) (lambda : ℚ) : CompressionState :=
  if lambda < 0 then st
  else { LambdaCompression := lambda, ApplyCompression := decide (lambda > 0) }

/-! ## Adaptive spectral whitening (src/awhitening.go) -/

/-- State of `SpectralWhitening` (src/awhitening.go lines 12-20); only the
fields read by `Do`, `SetFloor` and `Reset` are modelled (`BufSize`,
`HopSize`, `Samplerate`, `RelaxTime` feed exclusively into the derived
`RDecay`). -/
structure SpectralWhitening where
  RDecay : ℚ
  Floor : ℚ
  PeakValues : List ℚ
  deriving DecidableEq

/-- Per-bin body of the `SpectralWhitening.Do` loop (src/awhitening.go
lines 43-49): `tmp = max(RDecay*peak, Floor)`, `peak = max(norm, tmp)`,
`norm /= peak` when `peak > 0`.  Returns the new `(norm, peak)` pair. -/
def whitenBin (rdecay fl peak norm : ℚ) : ℚ × ℚ :=
  let tmp := max (rdecay * peak) fl
  let p := max norm tmp
  (if 0 < p then norm / p else norm, p)

/-- The `Do` loop (src/awhitening.go lines 38-49) runs over
`min fftgrain.Length s.PeakValues.Length` bins; entries past the shorter
list are left untouched, exactly as in the Go code. -/
def whitenLoop (rdecay fl : ℚ) : List ℚ → List ℚ → List ℚ × List ℚ
  | [], norms => (norms, [])
  | peaks, [] => ([], peaks)
  | p :: peaks, n :: norms =>
    let b := whitenBin rdecay fl p n
    let rest := whitenLoop rdecay fl peaks norms
    (b.1 :: rest.1, b.2 :: rest.2)

/-- Embeds `SpectralWhitening.Do` (src/awhitening.go lines 37-50):
returns the whitened magnitudes and the updated state. -/
def SpectralWhitening.Do (s : SpectralWhitening) (norm : List ℚ) :
    List ℚ × SpectralWhitening :=
  let r := whitenLoop s.RDecay s.Floor s.PeakValues norm
  (r.1, { s with PeakValues := r.2 })

/-- Embeds `SpectralWhitening.SetFloor` (src/awhitening.go lines 65-67):
the single assignment `s.Floor = floor`. -/
def SpectralWhitening.SetFloor (s : SpectralWhitening) (fl : ℚ) :
    SpectralWhitening :=
  { s with Floor := fl }

/-- Embeds `SpectralWhitening.Reset` (src/awhitening.go lines 75-79):
every tracked peak is set to the current floor. -/
def SpectralWhitening.Reset (s : SpectralWhitening) : SpectralWhitening :=
  { s with PeakValues := s.PeakValues.map (fun _ => s.Floor) }

/-! ## Quadratic peak interpolation (src/unnamed/part_001 lines 109-143) -/

/-- Embeds `FvecQuadraticPeakPos`.  All branches are translated literally;
the final Go statement divides `0.5*(s0-s2)` by `s0-2*s1+s2` with no guard,
which for a zero denominator produces a non-finite float64 (`±Inf`/`NaN`),
modelled by `none`.  Every other branch returns a finite value `some _`. -/
def FvecQuadraticPeakPos (x : List ℚ) (pos : ℕ) : Option ℚ :=
  if pos = 0 ∨ pos = x.length - 1 then some pos
  else
    let x0 := if 1 ≤ pos then pos - 1 else pos
    let x2 := if x.length ≤ pos + 1 then pos else pos + 1
    if x0 = pos then
      some (if getE x pos ≤ getE x x2 then (pos : ℚ) else x2)
    else if x2 = pos then
      some (if getE x pos ≤ getE x x0 then (pos : ℚ) else x0)
    else
      let s0 := getE x x0
      let s1 := getE x pos
      let s2 := getE x x2
      if s0 - 2 * s1 + s2 = 0 then none
      else some ((pos : ℚ) + (1 / 2) * (s0 - s2) / (s0 - 2 * s1 + s2))

/-! ## Onset state machine (src/unnamed/part_003) -/

/-- Embeds the helper `Round` (src/unnamed/part_001 lines 169-171):
`int(math.Floor(x + 0.5))`.  `Rat.floor` is the floor function on `ℚ`
(it agrees with `Int.floor`, see `Rat.floor_def`), chosen for kernel
computability. -/
def Round (x : ℚ) : ℤ := Rat.floor (x + 1 / 2)

theorem ratFloor_eq_intFloor (q : ℚ) : Rat.floor q = Int.floor q := by
  rw [Rat.floor_def', Rat.floor_def]

/-- Embeds the helper `Max` on `uint` (src/unnamed/part_001 lines 161-166). -/
def MaxU (a b : ℕ) : ℕ := if a > b then a else b

/-- The scalar state of `Onset` (src/unnamed/part_003 lines 8-25) used by
the acceptance logic of `Onset.Do`: configuration `Minioi`, `Delay`,
`HopSize` and the two counters `TotalFrames`, `LastOnset` (all Go `uint`). -/
structure OnsetState where
  Minioi : ℕ
  Delay : ℕ
  HopSize : ℕ
  TotalFrames : ℕ
  LastOnset : ℕ
  deriving DecidableEq

/-- Embeds the acceptance logic of `Onset.Do` (src/unnamed/part_003 lines
47-107).  The front of the pipeline (phase vocoder, optional whitening and
compression, spectral descriptor, peak picker) only feeds the branch below
through the single value `onset.Data[0]`, abstracted as the argument `p`;
`silent` is the value of `SilenceDetection(input, o.Silence)`, which the Go
code evaluates on the unchanged input at both of its use sites.  The
`uint` conversion `uint(Round(isonset * hopSize))` is `Int.toNat`, exact
for `p > 0` (the branch guard).  Returns the emitted `onset.Data[0]` and
the updated state (`TotalFrames += HopSize` runs unconditionally). -/
def OnsetDo (st : OnsetState) (silent : Bool) (p : ℚ) : ℚ × OnsetState :=
  let adv := fun (last : ℕ) =>
    { st with LastOnset := last, TotalFrames := st.TotalFrames + st.HopSize }
  if 0 < p then
    if silent then (0, adv st.LastOnset)
    else
      let newOnset := st.TotalFrames + (Round (p * st.HopSize)).toNat
      if st.LastOnset + st.Minioi < newOnset then
        if 0 < st.LastOnset ∧ newOnset < st.Delay then (0, adv st.LastOnset)
        else (p, adv (MaxU st.Delay newOnset))
      else (0, adv st.LastOnset)
  else
    if st.TotalFrames ≤ st.Delay then
      if silent then (p, adv st.LastOnset)
      else
        if st.TotalFrames = 0 ∨ st.LastOnset + st.Minioi < st.TotalFrames then
          ((st.Delay : ℚ) / (st.HopSize : ℚ), adv (st.TotalFrames + st.Delay))
        else (p, adv st.LastOnset)
    else (p, adv st.LastOnset)

/-- Embeds `Onset.Reset` (src/unnamed/part_003 lines 246-249). -/
def OnsetReset (st : OnsetState) : OnsetState :=
  { st with LastOnset := 0, TotalFrames := 0 }

/-! ## Local energy and silence detection (src/fvec.go, src/unnamed/part_001) -/

/-- Embeds `Fvec.LocalEnergyDB` (src/fvec.go lines 109-118): accumulate
`energy += v*v`; if `energy > 0` return `10*log10(energy/length)`, else
return `-90.0` exactly. -/
noncomputable def LocalEnergyDB (l : List ℝ) : ℝ :=
  let energy := (l.map (fun v => v * v)).sum
  if 0 < energy then 10 * Real.logb 10 (energy / l.length) else -90

/-- Embeds `SilenceDetection` (src/unnamed/part_001 lines 9-12):
`input.LocalEnergyDB() < threshold`. -/
def SilenceDetection (input : List ℝ) (threshold : ℝ) : Prop :=
  LocalEnergyDB input < threshold

/-- The default silence threshold, set by `Onset.SetDefaultParameters`
(src/unnamed/part_003 line 257: `o.SetSilence(-70.0)`). -/
def DefaultSilence : ℝ := -70

/-! ## Spectral descriptor bank (src/unnamed/part_000 lines 94-300) -/

/-- The nine descriptor variants (`SpecdescType`, src/unnamed/part_000
lines 97-107). -/
inductive SpecdescType
  | onsetEnergy | onsetSpecdiff | onsetHFC | onsetComplex | onsetPhase
  | onsetWPhase | onsetKL | onsetMKL | onsetSpecflux

/-- State of `Specdesc` (src/unnamed/part_000 lines 110-117). -/
structure Specdesc where
  OnsetType : SpecdescType
  Threshold : ℝ
  OldMag : List ℝ
  Dev1 : List ℝ
  Theta1 : List ℝ
  Theta2 : List ℝ

/-- Embeds `NewSpecdesc` (src/unnamed/part_000 lines 120-156) with the mode
already resolved to its `SpecdescType` (the string switch, including the
`default:` fallback to HFC, maps every mode to one of the nine variants):
threshold `0.1`, four zeroed per-bin buffers of length `size/2 + 1`. -/
noncomputable def NewSpecdesc (t : SpecdescType) (size : ℕ) : Specdesc :=
  { OnsetType := t
    Threshold := 1 / 10
    OldMag := List.replicate (size / 2 + 1) 0
    Dev1 := List.replicate (size / 2 + 1) 0
    Theta1 := List.replicate (size / 2 + 1) 0
    Theta2 := List.replicate (size / 2 + 1) 0 }

/-- Accumulator plus mutable per-bin state threaded through one descriptor
loop: (onset.Data[0], OldMag, Dev1, Theta1, Theta2). -/
abbrev DescState := ℝ × List ℝ × List ℝ × List ℝ × List ℝ

/-- Loop body of `Specdesc.energy` (src/unnamed/part_000 lines 185-190). -/
noncomputable def energyStep (norm _phas : List ℝ) (z : DescState) (j : ℕ) : DescState :=
  (z.1 + getE norm j * getE norm j, z.2)

/-- Loop body of `Specdesc.hfc` (src/unnamed/part_000 lines 193-198):
`onset.Data[0] += float64(j+1) * fftgrain.Norm[j]`. -/
noncomputable def hfcStep (norm _phas : List ℝ) (z : DescState) (j : ℕ) : DescState :=
  (z.1 + ((j : ℝ) + 1) * getE norm j, z.2)

/-- Loop body of `Specdesc.complex` (src/unnamed/part_000 lines 201-222):
predicted phase into `Dev1`, Euclidean distance in the complex domain,
accumulated only when positive; phase and magnitude history always update. -/
noncomputable def complexStep (norm phas : List ℝ) (z : DescState) (j : ℕ) : DescState :=
  let (acc, oldMag, dev1, theta1, theta2) := z
  let dev1' := dev1.set j (2 * getE theta1 j - getE theta2 j)
  let dev := getE dev1' j - getE phas j
  let val := getE oldMag j * getE oldMag j + getE norm j * getE norm j -
    2 * getE oldMag j * getE norm j * Real.cos dev
  let acc' := if 0 < val then acc + Real.sqrt val else acc
  (acc', oldMag.set j (getE norm j), dev1', theta1.set j (getE phas j),
    theta2.set j (getE theta1 j))

/-- Loop body of `Specdesc.phase` (src/unnamed/part_000 lines 225-234). -/
noncomputable def phaseStep (threshold : ℝ) (norm phas : List ℝ) (z : DescState) (j : ℕ) :
    DescState :=
  let (acc, oldMag, dev1, theta1, theta2) := z
  let dev := |getE phas j - getE theta1 j|
  let acc' := if threshold < getE norm j then acc + dev else acc
  (acc', oldMag, dev1, theta1.set j (getE phas j), theta2)

/-- Loop body of `Specdesc.wphase` (src/unnamed/part_000 lines 237-246). -/
noncomputable def wphaseStep (threshold : ℝ) (norm phas : List ℝ) (z : DescState) (j : ℕ) :
    DescState :=
  let (acc, oldMag, dev1, theta1, theta2) := z
  let dev := |getE phas j - getE theta1 j|
  let acc' := if threshold < getE norm j then acc + getE norm j * dev else acc
  (acc', oldMag, dev1, theta1.set j (getE phas j), theta2)

/-- Loop body of `Specdesc.specdiff` (src/unnamed/part_000 lines 249-264). -/
noncomputable def specdiffStep (threshold : ℝ) (norm _phas : List ℝ) (z : DescState) (j : ℕ) :
    DescState :=
  let (acc, oldMag, dev1, theta1, theta2) := z
  let val := getE norm j * getE norm j - getE oldMag j * getE oldMag j
  let dev1' := dev1.set j (if 0 < val then Real.sqrt val else 0)
  let acc' := if threshold < getE norm j then acc + |getE dev1' j| else acc
  (acc', oldMag.set j (getE norm j), dev1', theta1, theta2)

/-- Loop body of `Specdesc.kl` (src/unnamed/part_000 lines 267-277); the
trailing `math.IsNaN` clamp has no `ℝ` counterpart (no NaN exists) and is
the identity here. -/
noncomputable def klStep (norm _phas : List ℝ) (z : DescState) (j : ℕ) : DescState :=
  let (acc, oldMag, dev1, theta1, theta2) := z
  let acc' := acc + getE norm j * Real.log (1 + getE norm j / (getE oldMag j + 1 / 10))
  (acc', oldMag.set j (getE norm j), dev1, theta1, theta2)

/-- Loop body of `Specdesc.mkl` (src/unnamed/part_000 lines 280-289); the
`math.IsNaN` clamp is the identity over `ℝ`. -/
noncomputable def mklStep (norm _phas : List ℝ) (z : DescState) (j : ℕ) : DescState :=
  let (acc, oldMag, dev1, theta1, theta2) := z
  let acc' := acc + Real.log (1 + getE norm j / (getE oldMag j + 1 / 10))
  (acc', oldMag.set j (getE norm j), dev1, theta1, theta2)

/-- Loop body of `Specdesc.specflux` (src/unnamed/part_000 lines 292-300). -/
noncomputable def specfluxStep (norm _phas : List ℝ) (z : DescState) (j : ℕ) : DescState :=
  let (acc, oldMag, dev1, theta1, theta2) := z
  let acc' := if getE oldMag j < getE norm j
    then acc + (getE norm j - getE oldMag j) else acc
  (acc', oldMag.set j (getE norm j), dev1, theta1, theta2)

/-- Dispatch of `Specdesc.Do` (src/unnamed/part_000 lines 159-182) to the
per-variant loop body; the loop runs `j = 0 .. fftgrain.Length-1`. -/
noncomputable def descStep (s : Specdesc) (norm phas : List ℝ) : DescState → ℕ → DescState :=
  match s.OnsetType with
  | .onsetEnergy => energyStep norm phas
  | .onsetHFC => hfcStep norm phas
  | .onsetComplex => complexStep norm phas
  | .onsetPhase => phaseStep s.Threshold norm phas
  | .onsetWPhase => wphaseStep s.Threshold norm phas
  | .onsetSpecdiff => specdiffStep s.Threshold norm phas
  | .onsetKL => klStep norm phas
  | .onsetMKL => mklStep norm phas
  | .onsetSpecflux => specfluxStep norm phas

/-- Embeds `Specdesc.Do` on a spectral frame given as parallel magnitude
and phase lists of length `fftgrain.Length`: runs the selected loop body
for every bin index, starting from `onset.Data[0] = 0`, and returns the
novelty value together with the updated descriptor state. -/
noncomputable def Specdesc.Do (s : Specdesc) (norm phas : List ℝ) : ℝ × Specdesc :=
  let z := (List.range norm.length).foldl (descStep s norm phas)
    (0, s.OldMag, s.Dev1, s.Theta1, s.Theta2)
  (z.1,
    { s with
      OldMag := z.2.1
      Dev1 := z.2.2.1
      Theta1 := z.2.2.2.1
      Theta2 := z.2.2.2.2 })

/-! ## Generic helper lemmas used by several claim proofs -/

theorem getE_replicate_zero {α : Type} [Zero α] (m j : ℕ) :
    getE (List.replicate m (0 : α)) j = 0 := by
  rcases lt_or_le j m with h | h
  · rw [getE_eq_getElem _ (by simpa using h)]
    simp
  · rw [getE, List.getD_eq_default _ _ (by simpa using h)]

theorem set_replicate_zero {α : Type} [Zero α] (m j : ℕ) :
    (List.replicate m (0 : α)).set j 0 = List.replicate m 0 := by
  have := set_getE_self (List.replicate m (0 : α)) j
  rwa [getE_replicate_zero] at this

theorem foldl_fixed {β γ : Type} (f : β → γ → β) (z : β)
    (h : ∀ x, f z x = z) (L : List γ) : L.foldl f z = z := by
  induction L with
  | nil => rfl
  | cons a as ih => rw [List.foldl_cons, h a, ih]

theorem filterDo_length (xs : List ℚ) : ∀ f : Filter,
    (Filter.Do f xs).1.length = xs.length := by
  induction xs with
  | nil => intro f; rfl
  | cons x rest ih =>
    intro f
    show ((filterStep f x).1 :: (Filter.Do (filterStep f x).2 rest).1).length = _
    rw [List.length_cons, ih]
    rfl

theorem identCoeffs_unit : IdentCoeffs ⟨1, [1], [1], [0], [0]⟩ := by
  constructor
  · rfl
  · intro l hl
    constructor <;>
    · show getE [(1 : ℚ)] l = 0
      rw [getE, List.getD_eq_default]
      simpa using hl

theorem whitenLoop_floor_indep (r f1 f2 : ℚ) :
    ∀ peaks norms : List ℚ, (∀ p ∈ peaks, f1 ≤ r * p ∧ f2 ≤ r * p) →
    whitenLoop r f1 peaks norms = whitenLoop r f2 peaks norms := by
  intro peaks
  induction peaks with
  | nil => intro norms _; cases norms <;> rfl
  | cons p ps ih =>
    intro norms h
    cases norms with
    | nil => rfl
    | cons n ns =>
      have hp := h p (by simp)
      have hbin : whitenBin r f1 p n = whitenBin r f2 p n := by
        rw [whitenBin, whitenBin, max_eq_left hp.1, max_eq_left hp.2]
      show (let b := whitenBin r f1 p n
            let rest := whitenLoop r f1 ps ns
            (b.1 :: rest.1, b.2 :: rest.2)) =
          (let b := whitenBin r f2 p n
            let rest := whitenLoop r f2 ps ns
            (b.1 :: rest.1, b.2 :: rest.2))
      rw [hbin, ih ns (fun q hq => h q (by simp [hq]))]

/-! ## Median selection (src/unnamed/part_001 lines 23-91 and 146-158) -/

/-- Inner upward scan of the `FvecMedian` partition,
`for ll++; arr[low] > arr[ll]; ll++ {}` (src/unnamed/part_001 line 68):
starting at `i` (the caller applies the pre-increment), advance while
`pivot > arr[i]`.  The scan always terminates against the `arr[high]`
sentinel; the fuel only bounds the recursion and is chosen large enough to
never run out on the reachable states. -/
def scanUp (arr : List ℚ) (pivot : ℚ) : ℕ → ℕ → ℕ
  | i, 0 => i
  | i, fuel + 1 => if getE arr i < pivot then scanUp arr pivot (i + 1) fuel else i

/-- Inner downward scan, `for hh--; arr[hh] > arr[low]; hh--` (line 70):
the argument is the value of `hh` before the pre-decrement, so position
`i - 1` is tested first.  The `arr[low] = pivot` sentinel stops the scan at
`low` at the latest, so the `0` case is unreachable from the call sites. -/
def scanDown (arr : List ℚ) (pivot : ℚ) : ℕ → ℕ
  | 0 => 0
  | i + 1 => if pivot < getE arr i then scanDown arr pivot i else i

/-- The `Partition` loop of `FvecMedian` (src/unnamed/part_001 lines 65-78):
scan up from `ll+1`, scan down from `hh`, stop when the scans cross,
otherwise swap and continue.  `pivot` is `arr[low]`, re-read each
iteration exactly as the Go comparisons do (it is never moved by the inner
swaps).  Fuel bounds the iteration count; the correctness lemma shows the
loop exits before any reachable state exhausts it. -/
def partitionLoop (low : ℕ) : List ℚ → ℕ → ℕ → ℕ → List ℚ × ℕ × ℕ
  | arr, ll, hh, 0 => (arr, ll, hh)
  | arr, ll, hh, fuel + 1 =>
    let pivot := getE arr low
    let ll2 := scanUp arr pivot (ll + 1) (arr.length + 1)
    let hh2 := scanDown arr pivot hh
    if hh2 < ll2 then (arr, ll2, hh2)
    else partitionLoop low (swapE arr ll2 hh2) ll2 hh2 fuel

/-- The outer selection loop of `FvecMedian` (src/unnamed/part_001 lines
37-90): return `arr[median]` when the window closes, sort two remaining
elements directly, otherwise median-of-three the window ends, stash the
minimum at `low+1`, partition, swap the pivot into `hh`, and shrink the
active window (`if hh <= median { low = ll }; if hh >= median
{ high = hh-1 }`). -/
def selectLoop (median : ℕ) : List ℚ → ℕ → ℕ → ℕ → ℚ
  | arr, _, _, 0 => getE arr median
  | arr, low, high, fuel + 1 =>
    if high ≤ low then getE arr median
    else if high = low + 1 then
      if getE arr high < getE arr low then getE (swapE arr low high) median
      else getE arr median
    else
      let middle := (low + high) / 2
      let a1 := if getE arr high < getE arr middle then swapE arr middle high else arr
      let a2 := if getE a1 high < getE a1 low then swapE a1 low high else a1
      let a3 := if getE a2 low < getE a2 middle then swapE a2 middle low else a2
      let a4 := swapE a3 middle (low + 1)
      let r := partitionLoop low a4 (low + 1) high (a4.length + 1)
      let arr2 := swapE r.1 low r.2.2
      let low2 := if r.2.2 ≤ median then r.2.1 else low
      let high2 := if median ≤ r.2.2 then r.2.2 - 1 else high
      selectLoop median arr2 low2 high2 fuel

/-- Embeds `FvecMedian` (src/unnamed/part_001 lines 23-91): empty input
returns `0`; otherwise quick-select on a copy of the data with
`low = 0`, `high = n-1`, `median = (low+high)/2`. -/
def FvecMedian (input : List ℚ) : ℚ :=
  if input.length = 0 then 0
  else selectLoop ((input.length - 1) / 2) input 0 (input.length - 1)
    (input.length + 1)

/-- The ascending sort used as the reference (`sort.Float64s`). -/
def sortedL (l : List ℚ) : List ℚ := l.mergeSort (fun a b => decide (a ≤ b))

/-- Embeds `MedianSimple` (src/unnamed/part_001 lines 146-158): full sort,
average of the two middle elements for even lengths, middle element for
odd lengths. -/
def MedianSimple (data : List ℚ) : ℚ :=
  if data.length = 0 then 0
  else
    let sorted := sortedL data
    let n := data.length
    if n % 2 = 0 then (getE sorted (n / 2 - 1) + getE sorted (n / 2)) / 2
    else getE sorted (n / 2)

/-! ## Claim theorems -/

/-- C1: when the peak picker reports `p > 0` and the hop is not silent
(`silent = false`), `Onset.Do` forms the candidate
`totalFrames + round(p*hopSize)`; it accepts exactly when
`lastOnset + minioi < candidate` and not (`lastOnset > 0` and
`delay > candidate`), setting `lastOnset = max(delay, candidate)` and
emitting `p`; otherwise it emits `0` and leaves `lastOnset` unchanged. -/
theorem onsetDo_peak_acceptance (st : OnsetState) (p : ℚ) (hp : 0 < p) :
    (st.LastOnset + st.Minioi < st.TotalFrames + (Round (p * st.HopSize)).toNat ∧
        ¬(0 < st.LastOnset ∧
          st.TotalFrames + (Round (p * st.HopSize)).toNat < st.Delay) →
      OnsetDo st false p =
        (p, { st with
          LastOnset :=
            MaxU st.Delay (st.TotalFrames + (Round (p * st.HopSize)).toNat)
          TotalFrames := st.TotalFrames + st.HopSize })) ∧
    (¬(st.LastOnset + st.Minioi < st.TotalFrames + (Round (p * st.HopSize)).toNat ∧
        ¬(0 < st.LastOnset ∧
          st.TotalFrames + (Round (p * st.HopSize)).toNat < st.Delay)) →
      OnsetDo st false p =
        (0, { st with TotalFrames := st.TotalFrames + st.HopSize })) := by
  constructor
  · rintro ⟨h1, h2⟩
    simp only [OnsetDo, if_pos hp, Bool.false_eq_true, if_false, if_pos h1, if_neg h2]
  · intro h
    by_cases h1 : st.LastOnset + st.Minioi <
        st.TotalFrames + (Round (p * st.HopSize)).toNat
    · have h2 : 0 < st.LastOnset ∧
          st.TotalFrames + (Round (p * st.HopSize)).toNat < st.Delay := by
        by_contra hc
        exact h ⟨h1, hc⟩
      simp only [OnsetDo, if_pos hp, Bool.false_eq_true, if_false, if_pos h1,
        if_pos h2]
    · simp only [OnsetDo, if_pos hp, Bool.false_eq_true, if_false, if_neg h1]

/-- Witness for C1 at a concrete accepted onset: state
`minioi=10, delay=5, hop=4, totalFrames=100, lastOnset=20` with `p = 2`
gives candidate `108`, acceptance, `lastOnset = max(5,108) = 108`. -/
theorem onsetDo_peak_acceptance_witness :
    OnsetDo ⟨10, 5, 4, 100, 20⟩ false 2 = (2, ⟨10, 5, 4, 104, 108⟩) := by
  have hr : Round (2 * ((4 : ℕ) : ℚ)) = 8 := by
    rw [Round, ratFloor_eq_intFloor]
    norm_num
  have hacc : 20 + 10 < 100 + (Round (2 * ((4 : ℕ) : ℚ))).toNat ∧
      ¬(0 < 20 ∧ 100 + (Round (2 * ((4 : ℕ) : ℚ))).toNat < 5) := by
    rw [hr]
    decide
  have h := (onsetDo_peak_acceptance ⟨10, 5, 4, 100, 20⟩ 2 (by norm_num)).1 hacc
  rw [h]
  show (2, (⟨10, 5, 4, 104,
    MaxU 5 (100 + (Round (2 * ((4 : ℕ) : ℚ))).toNat)⟩ : OnsetState)) = _
  rw [hr]
  decide

/-- C4: every `Onset.Do` call advances `TotalFrames` by exactly `HopSize`;
`LastOnset` changes only when the emitted onset signal is positive and it
never decreases.  The two hypotheses express the reachable-state invariant
(`HopSize` is positive by construction, and `TotalFrames = 0` only in the
freshly reset state where `LastOnset = 0`; see `onsetReset_start` and
`onsetDo_totalFrames_pos`). -/
theorem onsetDo_counters (st : OnsetState) (silent : Bool) (p : ℚ)
    (hhop : 0 < st.HopSize) (hstart : st.TotalFrames = 0 → st.LastOnset = 0) :
    (OnsetDo st silent p).2.TotalFrames = st.TotalFrames + st.HopSize ∧
    st.LastOnset ≤ (OnsetDo st silent p).2.LastOnset ∧
    ((OnsetDo st silent p).2.LastOnset ≠ st.LastOnset →
      0 < (OnsetDo st silent p).1) := by
  simp only [OnsetDo]
  split_ifs with h1 h2 h3 h4 h5 h6 h7
  · exact ⟨rfl, le_refl _, fun h => absurd rfl h⟩
  · exact ⟨rfl, le_refl _, fun h => absurd rfl h⟩
  · -- accepted onset: LastOnset becomes max(Delay, candidate) > LastOnset
    refine ⟨rfl, ?_, fun _ => h1⟩
    show st.LastOnset ≤ MaxU st.Delay _
    rw [MaxU]
    split_ifs <;> omega
  · exact ⟨rfl, le_refl _, fun h => absurd rfl h⟩
  · exact ⟨rfl, le_refl _, fun h => absurd rfl h⟩
  · -- forced early onset: LastOnset becomes TotalFrames + Delay
    refine ⟨rfl, ?_, ?_⟩
    · show st.LastOnset ≤ st.TotalFrames + st.Delay
      rcases h7 with h6 | h6
      · rw [hstart h6]
        exact Nat.zero_le _
      · omega
    · intro hne
      have hne2 : st.TotalFrames + st.Delay ≠ st.LastOnset := hne
      show (0 : ℚ) < (st.Delay : ℚ) / (st.HopSize : ℚ)
      have hdelay : 0 < st.Delay := by
        rcases h7 with h6 | h6
        · have h0 := hstart h6
          omega
        · omega
      exact div_pos (by exact_mod_cast hdelay) (by exact_mod_cast hhop)
  · exact ⟨rfl, le_refl _, fun h => absurd rfl h⟩
  · exact ⟨rfl, le_refl _, fun h => absurd rfl h⟩

/-- Witness for C4 at a concrete call (accepted onset). -/
theorem onsetDo_counters_witness :
    0 < (⟨10, 5, 4, 100, 20⟩ : OnsetState).HopSize ∧
      ((⟨10, 5, 4, 100, 20⟩ : OnsetState).TotalFrames = 0 →
        (⟨10, 5, 4, 100, 20⟩ : OnsetState).LastOnset = 0) ∧
      ((OnsetDo ⟨10, 5, 4, 100, 20⟩ false 2).2.TotalFrames = 104 ∧
        20 ≤ (OnsetDo ⟨10, 5, 4, 100, 20⟩ false 2).2.LastOnset) := by
  refine ⟨by decide, by decide, ?_⟩
  have h := onsetDo_counters ⟨10, 5, 4, 100, 20⟩ false 2 (by decide) (by decide)
  exact ⟨h.1, h.2.1⟩

/-- Auxiliary for C4: `Onset.Reset` (and `NewOnset`, which calls it)
establishes the start invariant used in `onsetDo_counters`. -/
theorem onsetReset_start (st : OnsetState) :
    (OnsetReset st).TotalFrames = 0 ∧ (OnsetReset st).LastOnset = 0 :=
  ⟨rfl, rfl⟩

/-- Auxiliary for C4: after any call with positive hop size,
`TotalFrames` is positive, so the start invariant propagates. -/
theorem onsetDo_totalFrames_pos (st : OnsetState) (silent : Bool) (p : ℚ)
    (hhop : 0 < st.HopSize) : 0 < (OnsetDo st silent p).2.TotalFrames := by
  simp only [OnsetDo]
  split_ifs <;> · show 0 < st.TotalFrames + st.HopSize; omega

/-- C5 counterexample: constructing a filter of order 0 does not succeed —
`NewFilter(0)` writes `f.A[0]` into an empty slice and panics (`none`),
rather than yielding a no-op filter. -/
theorem newFilter_zero_counterexample : NewFilter 0 = none := rfl

/-- C5 (amended): filter construction succeeds for every order ≥ 1, and the
freshly constructed filter (default identity coefficients `B[0]=A[0]=1`,
all other coefficients zero) applies as an exact no-op to any finite
buffer; `Filter.Do` is total and length-preserving on every buffer for any
filter state.  Order 0 panics (see `newFilter_zero_counterexample`). -/
theorem newFilter_pos_total_noop (order : ℕ) (horder : 1 ≤ order) :
    (∃ f, NewFilter order = some f ∧ ∀ xs : List ℚ, (Filter.Do f xs).1 = xs) ∧
    ∀ (g : Filter) (xs : List ℚ), (Filter.Do g xs).1.length = xs.length := by
  constructor
  · refine ⟨⟨order, (List.replicate order 0).set 0 1,
      (List.replicate order 0).set 0 1, List.replicate order 0,
      List.replicate order 0⟩, ?_, ?_⟩
    · rw [NewFilter, if_neg (by omega)]
    · intro xs
      exact (filterDo_ident xs _ (newFilter_identCoeffs order horder _
        (by rw [NewFilter, if_neg (by omega)]))).1
  · intro g xs
    exact filterDo_length xs g

/-- Witness for C5's amended theorem at order 3 and a concrete buffer. -/
theorem newFilter_pos_total_noop_witness :
    (1 : ℕ) ≤ 3 ∧
      (∃ f, NewFilter 3 = some f ∧ ∀ xs : List ℚ, (Filter.Do f xs).1 = xs) :=
  ⟨by decide, (newFilter_pos_total_noop 3 (by decide)).1⟩

/-- C8: the zero-phase filter `DoFiltFilt` with the fresh order-1 filter
(`B = [1]`, `A = [1]`, exactly what `NewFilter(1)` builds) returns every
buffer unchanged. -/
theorem doFiltFilt_identity (xs : List ℚ) :
    NewFilter 1 = some ⟨1, [1], [1], [0], [0]⟩ ∧
    (Filter.DoFiltFilt ⟨1, [1], [1], [0], [0]⟩ xs).1 = xs := by
  constructor
  · rfl
  · show ((Filter.Do (Filter.Reset (Filter.Do ⟨1, [1], [1], [0], [0]⟩ xs).2)
      (Filter.Do ⟨1, [1], [1], [0], [0]⟩ xs).1.reverse).1).reverse = xs
    obtain ⟨h1, h2⟩ := filterDo_ident xs _ identCoeffs_unit
    rw [h1]
    obtain ⟨h3, _⟩ := filterDo_ident xs.reverse _ (identCoeffs_reset _ h2)
    rw [h3, List.reverse_reverse]

/-- C9: `Onset.SetCompression` with a negative lambda leaves the state
unchanged (a silent no-op); with `lambda ≥ 0` it stores the lambda and
enables compression exactly when `lambda > 0`. -/
theorem setCompression_spec (st : CompressionState) (lambda : ℚ) :
    (lambda < 0 → SetCompression st lambda = st) ∧
    (0 ≤ lambda →
      (SetCompression st lambda).LambdaCompression = lambda ∧
      ((SetCompression st lambda).ApplyCompression = true ↔ 0 < lambda)) := by
  constructor
  · intro h
    rw [SetCompression, if_pos h]
  · intro h
    rw [SetCompression, if_neg (not_lt.mpr h)]
    exact ⟨rfl, by simp⟩

/-- Witness for C9 at `lambda = -1` (no-op) and `lambda = 2` (enabled). -/
theorem setCompression_spec_witness :
    SetCompression ⟨5, false⟩ (-1) = ⟨5, false⟩ ∧
      (SetCompression ⟨5, false⟩ 2).LambdaCompression = 2 ∧
      (SetCompression ⟨5, false⟩ 2).ApplyCompression = true := by
  refine ⟨(setCompression_spec ⟨5, false⟩ (-1)).1 (by decide), ?_, ?_⟩
  · exact ((setCompression_spec ⟨5, false⟩ 2).2 (by decide)).1
  · exact ((setCompression_spec ⟨5, false⟩ 2).2 (by decide)).2.mpr (by decide)

/-- C7 counterexample: two whitening states that differ only in the current
`Floor` (as after a `SetFloor` with no intervening `Reset`) produce
different magnitudes from the same frame, because `Do` reads `s.Floor`
directly in `max(RDecay*peak, Floor)`.  Here `RDecay = 1/2`, one tracked
peak `1`, input magnitude `1`: floor `1/10000` leaves the magnitude at `1`,
floor `4` whitens it to `1/4`. -/
theorem whitening_floor_counterexample :
    (SpectralWhitening.SetFloor ⟨1/2, 1/10000, [1]⟩ 4).RDecay =
        (⟨1/2, 1/10000, [1]⟩ : SpectralWhitening).RDecay ∧
    (SpectralWhitening.SetFloor ⟨1/2, 1/10000, [1]⟩ 4).PeakValues =
        (⟨1/2, 1/10000, [1]⟩ : SpectralWhitening).PeakValues ∧
    (SpectralWhitening.Do (SpectralWhitening.SetFloor ⟨1/2, 1/10000, [1]⟩ 4) [1]).1 ≠
        (SpectralWhitening.Do ⟨1/2, 1/10000, [1]⟩ [1]).1 := by
  refine ⟨rfl, rfl, ?_⟩
  have h1 : (SpectralWhitening.Do
      (SpectralWhitening.SetFloor ⟨1/2, 1/10000, [1]⟩ 4) [1]).1 = [1/4] := by
    norm_num [SpectralWhitening.Do, SpectralWhitening.SetFloor, whitenLoop,
      whitenBin, max_def]
  have h2 : (SpectralWhitening.Do ⟨1/2, 1/10000, [1]⟩ [1]).1 = [1] := by
    norm_num [SpectralWhitening.Do, whitenLoop, whitenBin, max_def]
  rw [h1, h2]
  simp

/-- C7 (amended): `SetFloor` writes only the `Floor` field, but `Do` reads
the current `Floor` in its per-bin update `max(RDecay*peak, Floor)`, so a
`SetFloor` can change the very next `Do` (see
`whitening_floor_counterexample`) — not only subsequent `Reset`s.  The
result of `Do` is independent of the floor exactly on frames where the
decayed peaks dominate it: if both floors are at most `RDecay * peak` for
every tracked peak, the two runs agree on magnitudes and updated peaks. -/
theorem whitening_setFloor_effect (s : SpectralWhitening) (f1 f2 : ℚ)
    (norm : List ℚ)
    (hdom : ∀ p ∈ s.PeakValues, f1 ≤ s.RDecay * p ∧ f2 ≤ s.RDecay * p) :
    (SpectralWhitening.SetFloor s f1).RDecay = s.RDecay ∧
    (SpectralWhitening.SetFloor s f1).PeakValues = s.PeakValues ∧
    (SpectralWhitening.Do (SpectralWhitening.SetFloor s f1) norm).1 =
      (SpectralWhitening.Do (SpectralWhitening.SetFloor s f2) norm).1 ∧
    (SpectralWhitening.Do (SpectralWhitening.SetFloor s f1) norm).2.PeakValues =
      (SpectralWhitening.Do (SpectralWhitening.SetFloor s f2) norm).2.PeakValues := by
  refine ⟨rfl, rfl, ?_, ?_⟩ <;>
  · show _ = _
    have h := whitenLoop_floor_indep s.RDecay f1 f2 s.PeakValues norm hdom
    simp only [SpectralWhitening.Do, SpectralWhitening.SetFloor, h]

/-- Witness for C7's amended theorem: decayed peak `1*2 = 2` dominates both
floors `1` and `2`, so the whitened output is the same. -/
theorem whitening_setFloor_effect_witness :
    (∀ p ∈ (⟨1, 1/10000, [2]⟩ : SpectralWhitening).PeakValues,
      (1 : ℚ) ≤ (⟨1, 1/10000, [2]⟩ : SpectralWhitening).RDecay * p ∧
      (2 : ℚ) ≤ (⟨1, 1/10000, [2]⟩ : SpectralWhitening).RDecay * p) ∧
    (SpectralWhitening.Do
        (SpectralWhitening.SetFloor ⟨1, 1/10000, [2]⟩ 1) [3]).1 =
      (SpectralWhitening.Do
        (SpectralWhitening.SetFloor ⟨1, 1/10000, [2]⟩ 2) [3]).1 := by
  have hdom : ∀ p ∈ (⟨1, 1/10000, [2]⟩ : SpectralWhitening).PeakValues,
      (1 : ℚ) ≤ (⟨1, 1/10000, [2]⟩ : SpectralWhitening).RDecay * p ∧
      (2 : ℚ) ≤ (⟨1, 1/10000, [2]⟩ : SpectralWhitening).RDecay * p := by
    intro p hp
    rw [List.mem_singleton] at hp
    subst hp
    constructor <;> norm_num
  exact ⟨hdom, (whitening_setFloor_effect ⟨1, 1/10000, [2]⟩ 1 2 [3] hdom).2.2.1⟩

/-- C6 counterexample: at the interior position of the 3-element window
`[0, 1, 2]` the denominator `s0 - 2*s1 + s2` is exactly zero, and
`FvecQuadraticPeakPos` divides by it anyway (the Go float64 result is
non-finite, modelled by `none`); it does not fall back to the lower-valued
neighbor (which would be position 0). -/
theorem quadraticPeakPos_counterexample :
    FvecQuadraticPeakPos [0, 1, 2] 1 = none ∧
    getE ([0, 1, 2] : List ℚ) 0 - 2 * getE ([0, 1, 2] : List ℚ) 1 +
      getE ([0, 1, 2] : List ℚ) 2 = 0 ∧
    getE ([0, 1, 2] : List ℚ) 0 < getE ([0, 1, 2] : List ℚ) 2 := by
  refine ⟨?_, by norm_num [getE], by norm_num [getE]⟩
  norm_num [FvecQuadraticPeakPos, getE]

/-- C6 (amended): for the interior position of every 3-element window the
function always takes the division path — the neighbor-comparison
fallback branches only cover clamped boundary indices, which the initial
boundary check has already returned on, so they are dead code there.  The
result is finite (`some`) exactly when the denominator `l - 2c + r` is
nonzero, in which case it is the quadratic refinement
`1 + 0.5*(l-r)/(l-2c+r)`; a degenerate denominator yields a non-finite
division result (`none`), not a fallback. -/
theorem quadraticPeakPos_interior (a b c : ℚ) :
    (a - 2 * b + c = 0 → FvecQuadraticPeakPos [a, b, c] 1 = none) ∧
    (a - 2 * b + c ≠ 0 →
      FvecQuadraticPeakPos [a, b, c] 1 =
        some (1 + (1 / 2) * (a - c) / (a - 2 * b + c))) := by
  constructor
  · intro h
    norm_num [FvecQuadraticPeakPos, getE, h]
  · intro h
    norm_num [FvecQuadraticPeakPos, getE, h]

/-- Witness for C6's amended theorem at `[0,1,2]` (degenerate denominator,
non-finite) and `[0,1,0]` (denominator `-2`, refined position `1`). -/
theorem quadraticPeakPos_interior_witness :
    ((0 : ℚ) - 2 * 1 + 2 = 0 ∧ FvecQuadraticPeakPos [0, 1, 2] 1 = none) ∧
    ((0 : ℚ) - 2 * 1 + 0 ≠ 0 ∧
      FvecQuadraticPeakPos [0, 1, 0] 1 =
        some (1 + (1 / 2) * ((0 : ℚ) - 0) / (0 - 2 * 1 + 0))) :=
  ⟨⟨by norm_num, (quadraticPeakPos_interior 0 1 2).1 (by norm_num)⟩,
    ⟨by norm_num, (quadraticPeakPos_interior 0 1 0).2 (by norm_num)⟩⟩

/-- C2 counterexample: on the even-length buffer `[0,1,2,3]` (length 4 ≥ 3)
the partition-based `FvecMedian` returns the lower-middle order statistic
`1`, while the sort-based `MedianSimple` averages the two middle elements
to `3/2`; the two disagree. -/
theorem fvecMedian_counterexample :
    3 ≤ ([0, 1, 2, 3] : List ℚ).length ∧
    FvecMedian [0, 1, 2, 3] = 1 ∧ MedianSimple [0, 1, 2, 3] = 3 / 2 ∧
    FvecMedian [0, 1, 2, 3] ≠ MedianSimple [0, 1, 2, 3] := by
  have h1 : FvecMedian [0, 1, 2, 3] = 1 := by
    norm_num [FvecMedian, selectLoop, partitionLoop, scanUp, scanDown, swapE, getE]
  have h2 : MedianSimple [0, 1, 2, 3] = 3 / 2 := by
    norm_num [MedianSimple, sortedL, getE, List.mergeSort]
  refine ⟨by norm_num, h1, h2, ?_⟩
  rw [h1, h2]
  norm_num

/-- Shared step fact for C3: every descriptor loop body maps the all-zero
accumulator-and-history state on an all-zero bin back to itself. -/
theorem descStep_zero (t : SpecdescType) (size : ℕ) (j : ℕ) :
    descStep (NewSpecdesc t size) (List.replicate (size / 2 + 1) 0)
      (List.replicate (size / 2 + 1) 0)
      (0, (NewSpecdesc t size).OldMag, (NewSpecdesc t size).Dev1,
        (NewSpecdesc t size).Theta1, (NewSpecdesc t size).Theta2) j =
      (0, (NewSpecdesc t size).OldMag, (NewSpecdesc t size).Dev1,
        (NewSpecdesc t size).Theta1, (NewSpecdesc t size).Theta2) := by
  cases t <;>
    norm_num [descStep, NewSpecdesc, energyStep, hfcStep, complexStep, phaseStep,
      wphaseStep, specdiffStep, klStep, mklStep, specfluxStep,
      getE_replicate_zero, set_replicate_zero, Real.log_one, Real.cos_zero]

/-- Shared fact for C3: on an all-zero frame, `Specdesc.Do` from the fresh
state emits `0` and leaves the state unchanged. -/
theorem specdescDo_zero_state (t : SpecdescType) (size : ℕ) :
    Specdesc.Do (NewSpecdesc t size) (List.replicate (size / 2 + 1) 0)
      (List.replicate (size / 2 + 1) 0) = (0, NewSpecdesc t size) := by
  rw [Specdesc.Do]
  rw [foldl_fixed _ _ (descStep_zero t size)]

/-- C3: for each of the nine descriptor variants, feeding the all-zero
spectral frame (all magnitudes and phases zero, `size/2 + 1` bins) for two
consecutive hops from the freshly initialized (zeroed) history yields a
novelty value of exactly 0 on the second call. -/
theorem specdescDo_zero_frame (t : SpecdescType) (size : ℕ) :
    (Specdesc.Do
        (Specdesc.Do (NewSpecdesc t size) (List.replicate (size / 2 + 1) 0)
          (List.replicate (size / 2 + 1) 0)).2
        (List.replicate (size / 2 + 1) 0)
        (List.replicate (size / 2 + 1) 0)).1 = 0 := by
  simp [specdescDo_zero_state]

/-- C10: a hop whose samples are all zero has total energy 0, so
`LocalEnergyDB` takes its guard branch and returns exactly `-90`;
consequently `SilenceDetection` classifies the hop as silent for every
threshold above `-90` dB — in particular the default `-70` dB — and
`Onset.Do` on a silent hop (`silent = true`, standing for the evaluated
`SilenceDetection(input, o.Silence)`) discards any reported peak `p > 0`
by emitting 0. -/
theorem zero_buffer_silent (n : ℕ) (θ : ℝ) (st : OnsetState) (p : ℚ)
    (hθ : -90 < θ) (hp : 0 < p) :
    LocalEnergyDB (List.replicate n 0) = -90 ∧
    SilenceDetection (List.replicate n 0) θ ∧
    SilenceDetection (List.replicate n 0) DefaultSilence ∧
    (OnsetDo st true p).1 = 0 := by
  have he : LocalEnergyDB (List.replicate n 0) = -90 := by
    rw [LocalEnergyDB]
    simp
  refine ⟨he, ?_, ?_, ?_⟩
  · rw [SilenceDetection, he]
    exact hθ
  · rw [SilenceDetection, he, DefaultSilence]
    norm_num
  · simp [OnsetDo, hp]

/-- Witness for C10 at `n = 1`, the default threshold `-70`, and a
concrete state with a reported peak `p = 1`. -/
theorem zero_buffer_silent_witness :
    (-90 : ℝ) < -70 ∧ (0 : ℚ) < 1 ∧
      SilenceDetection (List.replicate 1 0) (-70) ∧
      (OnsetDo ⟨0, 0, 1, 0, 0⟩ true 1).1 = 0 := by
  have h := zero_buffer_silent 1 (-70) ⟨0, 0, 1, 0, 0⟩ 1 (by norm_num)
    (by norm_num)
  exact ⟨by norm_num, by norm_num, h.2.1, h.2.2.2⟩

/-! ## Correctness of the quick-select median (C2)

Stage 1: a position that dominates its prefix and is dominated by its
suffix holds the order statistic of its index in any sorted rearrangement. -/

theorem sortedL_sorted (l : List ℚ) : List.Sorted (· ≤ ·) (sortedL l) :=
  List.sorted_mergeSort' l

theorem sortedL_perm (l : List ℚ) : (sortedL l).Perm l :=
  List.mergeSort_perm l _

theorem sortedL_length (l : List ℚ) : (sortedL l).length = l.length :=
  (sortedL_perm l).length_eq

theorem sortedL_congr {l l' : List ℚ} (h : l.Perm l') :
    sortedL l = sortedL l' :=
  List.eq_of_perm_of_sorted
    ((sortedL_perm l).trans (h.trans (sortedL_perm l').symm))
    (sortedL_sorted l) (sortedL_sorted l')

theorem countP_ge_of_front (l : List ℚ) (p : ℚ → Bool) (m : ℕ)
    (hm : m ≤ l.length) (h : ∀ i, (hi : i < m) → p l[i] = true) :
    m ≤ l.countP p := by
  have hsplit : l.countP p = (l.take m).countP p + (l.drop m).countP p := by
    conv_lhs => rw [← List.take_append_drop m l]
    exact List.countP_append _ _ _
  have htake : (l.take m).countP p = m := by
    have hlen : (l.take m).length = m := by
      rw [List.length_take]
      omega
    rw [List.countP_eq_length.mpr, hlen]
    intro a ha
    obtain ⟨i, hi, rfl⟩ := List.mem_iff_getElem.mp ha
    rw [List.getElem_take]
    have hi2 : i < m := by
      have := hi
      rw [List.length_take] at this
      omega
    exact h i hi2
  omega

theorem countP_ge_of_back (l : List ℚ) (p : ℚ → Bool) (m : ℕ)
    (h : ∀ i, (hi : i < l.length) → m ≤ i → p l[i] = true) :
    l.length - m ≤ l.countP p := by
  have hsplit : l.countP p = (l.take m).countP p + (l.drop m).countP p := by
    conv_lhs => rw [← List.take_append_drop m l]
    exact List.countP_append _ _ _
  have hdrop : (l.drop m).countP p = (l.drop m).length := by
    rw [List.countP_eq_length]
    intro a ha
    obtain ⟨i, hi, rfl⟩ := List.mem_iff_getElem.mp ha
    rw [List.getElem_drop]
    have hmi : m + i < l.length := by
      have := hi
      rw [List.length_drop] at this
      omega
    exact h (m + i) hmi (by omega)
  rw [List.length_drop] at hdrop
  omega

theorem countP_le_of_back_false (s : List ℚ) (p : ℚ → Bool) (m : ℕ)
    (h : ∀ i, (hi : i < s.length) → m ≤ i → p s[i] = false) :
    s.countP p ≤ m := by
  have hsplit : s.countP p = (s.take m).countP p + (s.drop m).countP p := by
    conv_lhs => rw [← List.take_append_drop m s]
    exact List.countP_append _ _ _
  have hdrop : (s.drop m).countP p = 0 := by
    rw [List.countP_eq_zero]
    intro a ha
    obtain ⟨i, hi, rfl⟩ := List.mem_iff_getElem.mp ha
    rw [List.getElem_drop]
    have hmi : m + i < s.length := by
      have := hi
      rw [List.length_drop] at this
      omega
    rw [h (m + i) hmi (by omega)]
    simp
  have htake : (s.take m).countP p ≤ m := by
    have := List.countP_le_length (p := p) (l := s.take m)
    rw [List.length_take] at this
    omega
  omega

theorem countP_le_of_front_false (s : List ℚ) (p : ℚ → Bool) (m : ℕ)
    (h : ∀ i, (hi : i < s.length) → i < m → p s[i] = false) :
    s.countP p ≤ s.length - m := by
  have hsplit : s.countP p = (s.take m).countP p + (s.drop m).countP p := by
    conv_lhs => rw [← List.take_append_drop m s]
    exact List.countP_append _ _ _
  have htake : (s.take m).countP p = 0 := by
    rw [List.countP_eq_zero]
    intro a ha
    obtain ⟨i, hi, rfl⟩ := List.mem_iff_getElem.mp ha
    have hi2 : i < m := by
      have := hi
      rw [List.length_take] at this
      omega
    have hi3 : i < s.length := by
      have := hi
      rw [List.length_take] at this
      omega
    rw [List.getElem_take, h i hi3 hi2]
    simp
  have hdrop : (s.drop m).countP p ≤ s.length - m := by
    have := List.countP_le_length (p := p) (l := s.drop m)
    rw [List.length_drop] at this
    omega
  omega

theorem getE_sorted_of_pivot (l : List ℚ) (k : ℕ) (hk : k < l.length)
    (hlo : ∀ i, i < k → getE l i ≤ getE l k)
    (hhi : ∀ j, k < j → j < l.length → getE l k ≤ getE l j) :
    getE (sortedL l) k = getE l k := by
  have hperm : (sortedL l).Perm l := sortedL_perm l
  have hsorted : List.Sorted (· ≤ ·) (sortedL l) := sortedL_sorted l
  have hlen : (sortedL l).length = l.length := sortedL_length l
  have hks : k < (sortedL l).length := by omega
  have hspair : ∀ i j, (hi : i < (sortedL l).length) →
      (hj : j < (sortedL l).length) → i ≤ j →
      (sortedL l)[i] ≤ (sortedL l)[j] := by
    intro i j hi hj hij
    rcases eq_or_lt_of_le hij with rfl | hij2
    · exact le_refl _
    · exact List.pairwise_iff_getElem.mp hsorted i j hi hj hij2
  have hcountA : k + 1 ≤ l.countP (fun x => decide (x ≤ l[k])) := by
    apply countP_ge_of_front l _ (k + 1) (by omega)
    intro i hi
    rcases Nat.lt_or_ge i k with hik | hik
    · have := hlo i hik
      rw [getE_eq_getElem l (show i < l.length by omega),
        getE_eq_getElem l hk] at this
      simpa using this
    · have hik2 : i = k := by omega
      subst hik2
      simp
  have hcountB : l.length - k ≤ l.countP (fun x => decide (l[k] ≤ x)) := by
    apply countP_ge_of_back l _ k
    intro i hi hik
    rcases Nat.eq_or_lt_of_le hik with rfl | hik2
    · simp
    · have := hhi i hik2 hi
      rw [getE_eq_getElem l hk, getE_eq_getElem l hi] at this
      simpa using this
  have hcA : l.countP (fun x => decide (x ≤ l[k])) =
      (sortedL l).countP (fun x => decide (x ≤ l[k])) :=
    (hperm.countP_eq _).symm
  have hcB : l.countP (fun x => decide (l[k] ≤ x)) =
      (sortedL l).countP (fun x => decide (l[k] ≤ x)) :=
    (hperm.countP_eq _).symm
  rw [getE_eq_getElem (sortedL l) hks, getE_eq_getElem l hk]
  rcases lt_trichotomy ((sortedL l)[k]) l[k] with hlt | heq | hgt
  · -- sorted value below l[k]: positions up to k are all < l[k], so fewer
    -- than length - k entries can be ≥ l[k]: contradiction with hcountB
    exfalso
    have hle : (sortedL l).countP (fun x => decide (l[k] ≤ x)) ≤
        (sortedL l).length - (k + 1) := by
      apply countP_le_of_front_false (sortedL l) _ (k + 1)
      intro i hi hik
      have hsi : (sortedL l)[i] ≤ (sortedL l)[k] :=
        hspair i k hi hks (by omega)
      have : ¬ (l[k] ≤ (sortedL l)[i]) := by
        intro hc
        exact absurd (le_trans hc hsi) (not_le.mpr hlt)
      simpa using this
    omega
  · exact heq
  · -- sorted value above l[k]: positions from k on are all > l[k], so at
    -- most k entries can be ≤ l[k]: contradiction with hcountA
    exfalso
    have hle : (sortedL l).countP (fun x => decide (x ≤ l[k])) ≤ k := by
      apply countP_le_of_back_false (sortedL l) _ k
      intro i hi hik
      have hsi : (sortedL l)[k] ≤ (sortedL l)[i] :=
        hspair k i hks hi hik
      have : ¬ ((sortedL l)[i] ≤ l[k]) := by
        intro hc
        exact absurd (le_trans hsi hc) (not_le.mpr hgt)
      simpa using this
    omega

/-! Stage 2: specifications of the two inner partition scans. -/

theorem scanUp_spec (arr : List ℚ) (pivot : ℚ) :
    ∀ fuel i bnd, i ≤ bnd → ¬ getE arr bnd < pivot → bnd ≤ i + fuel →
    i ≤ scanUp arr pivot i fuel ∧ scanUp arr pivot i fuel ≤ bnd ∧
    ¬ getE arr (scanUp arr pivot i fuel) < pivot ∧
    ∀ m, i ≤ m → m < scanUp arr pivot i fuel → getE arr m < pivot := by
  intro fuel
  induction fuel with
  | zero =>
    intro i bnd hib hb hf
    have heq : i = bnd := by omega
    subst heq
    rw [scanUp]
    exact ⟨le_refl _, le_refl _, hb, fun m h1 h2 => absurd h1 (by omega)⟩
  | succ fuel ih =>
    intro i bnd hib hb hf
    rw [scanUp]
    by_cases hc : getE arr i < pivot
    · rw [if_pos hc]
      have hibnd : i ≠ bnd := by
        intro h
        subst h
        exact hb hc
      obtain ⟨r1, r2, r3, r4⟩ := ih (i + 1) bnd (by omega) hb (by omega)
      refine ⟨by omega, r2, r3, ?_⟩
      intro m h1 h2
      rcases Nat.eq_or_lt_of_le h1 with rfl | h1
      · exact hc
      · exact r4 m h1 h2
    · rw [if_neg hc]
      exact ⟨le_refl _, hib, hc, fun m h1 h2 => absurd h1 (by omega)⟩

theorem scanDown_spec (arr : List ℚ) (pivot : ℚ) :
    ∀ i s, s < i → ¬ pivot < getE arr s →
    s ≤ scanDown arr pivot i ∧ scanDown arr pivot i < i ∧
    ¬ pivot < getE arr (scanDown arr pivot i) ∧
    ∀ m, scanDown arr pivot i < m → m < i → pivot < getE arr m := by
  intro i
  induction i with
  | zero =>
    intro s hs
    exact absurd hs (by omega)
  | succ i ih =>
    intro s hs hstop
    rw [scanDown]
    by_cases hc : pivot < getE arr i
    · rw [if_pos hc]
      have his : i ≠ s := by
        intro h
        subst h
        exact hstop hc
      obtain ⟨r1, r2, r3, r4⟩ := ih s (by omega) hstop
      refine ⟨r1, by omega, r3, ?_⟩
      intro m h1 h2
      rcases Nat.lt_or_ge m i with h2i | h2i
      · exact r4 m h1 h2i
      · have : m = i := by omega
        subst this
        exact hc
    · rw [if_neg hc]
      exact ⟨by omega, by omega, hc, fun m h1 h2 => absurd h1 (by omega)⟩

/-! Stage 3: the selection-loop invariants and their preservation by
in-window swaps. -/

/-- Every position left of `low` is at most every position from `low` on
(the prefix already fixed by earlier partitions). -/
def PrefixLe (arr : List ℚ) (low : ℕ) : Prop :=
  ∀ i j, i < low → low ≤ j → j < arr.length → getE arr i ≤ getE arr j

/-- Every position in `[low, high]` is at most every position right of
`high` (the suffix already fixed by earlier partitions). -/
def SuffixGe (arr : List ℚ) (low high : ℕ) : Prop :=
  ∀ i j, low ≤ i → i ≤ high → high < j → j < arr.length → getE arr i ≤ getE arr j

/-- The median position already holds its final (order-statistic) value:
everything before it is at most it, everything after it is at least it. -/
def MedianFixed (arr : List ℚ) (median : ℕ) : Prop :=
  (∀ i, i < median → getE arr i ≤ getE arr median) ∧
  (∀ j, median < j → j < arr.length → getE arr median ≤ getE arr j)

theorem prefixLe_swap {arr : List ℚ} {low : ℕ} (h : PrefixLe arr low)
    {a b : ℕ} (ha : low ≤ a) (hb : low ≤ b) (ha2 : a < arr.length)
    (hb2 : b < arr.length) : PrefixLe (swapE arr a b) low := by
  intro i j hi hj hj2
  rw [length_swapE] at hj2
  have hia : a ≠ i := by omega
  have hib : b ≠ i := by omega
  rw [getE_swapE_other _ hia hib]
  rcases eq_or_ne j b with rfl | hjb
  · rw [getE_swapE_right _ _ _ hb2]
    exact h i a hi ha ha2
  · rcases eq_or_ne j a with rfl | hja
    · rw [getE_swapE_left _ ha2 (by omega)]
      exact h i b hi hb hb2
    · rw [getE_swapE_other _ (Ne.symm hja) (Ne.symm hjb)]
      exact h i j hi hj hj2

theorem suffixGe_swap {arr : List ℚ} {low high : ℕ} (h : SuffixGe arr low high)
    {a b : ℕ} (ha : low ≤ a) (ha1 : a ≤ high) (hb : low ≤ b) (hb1 : b ≤ high)
    (ha2 : a < arr.length) (hb2 : b < arr.length) :
    SuffixGe (swapE arr a b) low high := by
  intro i j hi hi1 hj hj2
  rw [length_swapE] at hj2
  have hja : a ≠ j := by omega
  have hjb : b ≠ j := by omega
  rw [getE_swapE_other _ hja hjb]
  rcases eq_or_ne i b with rfl | hib
  · rw [getE_swapE_right _ _ _ hb2]
    exact h a j ha ha1 hj hj2
  · rcases eq_or_ne i a with rfl | hia
    · rw [getE_swapE_left _ ha2 (by omega)]
      exact h b j hb hb1 hj hj2
    · rw [getE_swapE_other _ (Ne.symm hia) (Ne.symm hib)]
      exact h i j hi hi1 hj hj2

theorem medianFixed_swap {arr : List ℚ} {median : ℕ} (h : MedianFixed arr median)
    {a b : ℕ}
    (hside : (a < median ∧ b < median) ∨ (median < a ∧ median < b))
    (ha2 : a < arr.length) (hb2 : b < arr.length) :
    MedianFixed (swapE arr a b) median := by
  have hma : a ≠ median := by omega
  have hmb : b ≠ median := by omega
  have hmed : getE (swapE arr a b) median = getE arr median :=
    getE_swapE_other _ hma hmb
  constructor
  · intro i hi
    rw [hmed]
    rcases eq_or_ne i b with rfl | hib
    · rw [getE_swapE_right _ _ _ hb2]
      have hamed : a < median := by omega
      exact h.1 a hamed
    · rcases eq_or_ne i a with rfl | hia
      · rw [getE_swapE_left _ ha2 (by omega)]
        have hbmed : b < median := by omega
        exact h.1 b hbmed
      · rw [getE_swapE_other _ (Ne.symm hia) (Ne.symm hib)]
        exact h.1 i hi
  · intro j hj hj2
    rw [length_swapE] at hj2
    rw [hmed]
    rcases eq_or_ne j b with rfl | hjb
    · rw [getE_swapE_right _ _ _ hb2]
      have hamed : median < a := by omega
      exact h.2 a hamed ha2
    · rcases eq_or_ne j a with rfl | hja
      · rw [getE_swapE_left _ ha2 (by omega)]
        have hbmed : median < b := by omega
        exact h.2 b hbmed hb2
      · rw [getE_swapE_other _ (Ne.symm hja) (Ne.symm hjb)]
        exact h.2 j hj hj2

/-! Stage 4: postcondition of the partition loop. -/

/-- What one full partition round guarantees, relative to the array `arr`
it started from (`out = (arrP, llP, hhP)`): the array is rearranged only
inside the open window `(low, high)`, positions `(low, llP)` are at most
the pivot `arr[low]`, positions `(hhP, high]` are at least it, `arrP[hhP]`
is at most it, the scans crossed (`hhP < llP`) inside the window, and the
three selection invariants survive. -/
def PartitionPost (low high median : ℕ) (arr : List ℚ)
    (out : List ℚ × ℕ × ℕ) : Prop :=
  out.1.Perm arr ∧
  out.1.length = arr.length ∧
  (∀ k, k ≤ low ∨ high ≤ k → getE out.1 k = getE arr k) ∧
  out.2.2 < out.2.1 ∧
  out.2.1 ≤ high ∧
  low ≤ out.2.2 ∧
  out.2.2 + 1 ≤ high ∧
  (∀ i, low < i → i < out.2.1 → getE out.1 i ≤ getE arr low) ∧
  (∀ j, out.2.2 < j → j ≤ high → getE arr low ≤ getE out.1 j) ∧
  getE out.1 out.2.2 ≤ getE arr low ∧
  PrefixLe out.1 low ∧
  SuffixGe out.1 low high ∧
  ((median < low ∨ high < median) → MedianFixed out.1 median)

theorem partitionLoop_spec (low high median : ℕ) :
    ∀ fuel arr ll hh,
    high < arr.length →
    low < ll → ll ≤ hh → ll < high → hh ≤ high →
    high ≤ ll + fuel →
    (∀ i, low < i → i ≤ ll → getE arr i ≤ getE arr low) →
    (∀ j, hh ≤ j → j ≤ high → getE arr low ≤ getE arr j) →
    PrefixLe arr low → SuffixGe arr low high →
    ((median < low ∨ high < median) → MedianFixed arr median) →
    PartitionPost low high median arr (partitionLoop low arr ll hh fuel) ∧
    ll + 1 ≤ (partitionLoop low arr ll hh fuel).2.1 := by
  intro fuel
  induction fuel with
  | zero =>
    intro arr ll hh hlen hll hllhh hllhi hhh hfuel
    omega
  | succ fuel ih =>
    intro arr ll hh hlen hll hllhh hllhi hhh hfuel h_lo h_hi hP2 hP3 hP4
    rw [partitionLoop]
    obtain ⟨su1, su2, su3, su4⟩ := scanUp_spec arr (getE arr low)
      (arr.length + 1) (ll + 1) high (by omega)
      (not_lt.mpr (h_hi high hhh (le_refl _))) (by omega)
    obtain ⟨sd1, sd2, sd3, sd4⟩ := scanDown_spec arr (getE arr low) hh low
      (by omega) (lt_irrefl _)
    set ll2 := scanUp arr (getE arr low) (ll + 1) (arr.length + 1) with hll2
    set hh2 := scanDown arr (getE arr low) hh with hhh2
    by_cases hcross : hh2 < ll2
    · rw [if_pos hcross]
      refine ⟨⟨List.Perm.refl _, rfl, fun k _ => rfl, hcross, su2, sd1,
        (show hh2 + 1 ≤ high by omega), ?_, ?_, le_of_not_lt sd3, hP2, hP3,
        hP4⟩, su1⟩
      · intro i hi1 hi2
        rcases Nat.lt_or_ge ll i with hci | hci
        · exact le_of_lt (su4 i (by omega) hi2)
        · exact h_lo i hi1 hci
      · intro j hj1 hj2
        rcases Nat.lt_or_ge j hh with hcj | hcj
        · exact le_of_lt (sd4 j hj1 hcj)
        · exact h_hi j hcj hj2
    · rw [if_neg hcross]
      have hle : ll2 ≤ hh2 := by omega
      have hll2len : ll2 < arr.length := by omega
      have hhh2len : hh2 < arr.length := by omega
      have hlowne1 : low ≠ ll2 := by omega
      have hlowne2 : low ≠ hh2 := by omega
      have hpivot : getE (swapE arr ll2 hh2) low = getE arr low :=
        getE_swapE_other _ (Ne.symm hlowne1) (Ne.symm hlowne2)
      have h_lo2 : ∀ i, low < i → i ≤ ll2 →
          getE (swapE arr ll2 hh2) i ≤ getE (swapE arr ll2 hh2) low := by
        intro i hi1 hi2
        rw [hpivot]
        rcases Nat.eq_or_lt_of_le hi2 with rfl | hi3
        · rcases eq_or_ne ll2 hh2 with heq | hne
          · rw [heq, getE_swapE_right _ _ _ hhh2len]
            exact le_of_not_lt sd3
          · rw [getE_swapE_left _ hll2len hne]
            exact le_of_not_lt sd3
        · have hne1 : ll2 ≠ i := by omega
          have hne2 : hh2 ≠ i := by omega
          rw [getE_swapE_other _ hne1 hne2]
          rcases Nat.lt_or_ge ll i with hci | hci
          · exact le_of_lt (su4 i (by omega) hi3)
          · exact h_lo i hi1 hci
      have h_hi2 : ∀ j, hh2 ≤ j → j ≤ high →
          getE (swapE arr ll2 hh2) low ≤ getE (swapE arr ll2 hh2) j := by
        intro j hj1 hj2
        rw [hpivot]
        rcases Nat.eq_or_lt_of_le hj1 with rfl | hj3
        · rw [getE_swapE_right _ _ _ hhh2len]
          exact le_of_not_lt su3
        · have hne1 : ll2 ≠ j := by omega
          have hne2 : hh2 ≠ j := by omega
          rw [getE_swapE_other _ hne1 hne2]
          rcases Nat.lt_or_ge j hh with hcj | hcj
          · exact le_of_lt (sd4 j hj3 hcj)
          · exact h_hi j hcj hj2
      obtain ⟨⟨p1, p2, p3, p4, p5, p6, p7, p8, p9, p10, p11, p12, p13⟩, pll⟩ :=
        ih (swapE arr ll2 hh2) ll2 hh2 (by simpa using hlen) (by omega) hle
          (by omega) (by omega) (by omega) h_lo2 h_hi2
          (prefixLe_swap hP2 (by omega) (by omega) hll2len hhh2len)
          (suffixGe_swap hP3 (by omega) (by omega) (by omega) (by omega)
            hll2len hhh2len)
          (fun hmed => medianFixed_swap (hP4 hmed)
            (by rcases hmed with hmed | hmed
                · exact Or.inr ⟨by omega, by omega⟩
                · exact Or.inl ⟨by omega, by omega⟩)
            hll2len hhh2len)
      have hout3 : ∀ k, k ≤ low ∨ high ≤ k →
          getE (partitionLoop low (swapE arr ll2 hh2) ll2 hh2 fuel).1 k =
            getE arr k := by
        intro k hk
        rw [p3 k hk]
        have hne1 : ll2 ≠ k := by omega
        have hne2 : hh2 ≠ k := by omega
        exact getE_swapE_other _ hne1 hne2
      refine ⟨⟨p1.trans (swapE_perm arr ll2 hh2 hll2len hhh2len),
        by rw [p2]; simp, hout3, p4, p5, p6, p7, ?_, ?_, ?_, p11, p12, p13⟩,
        by omega⟩
      · intro i hi1 hi2
        have := p8 i hi1 hi2
        rwa [hpivot] at this
      · intro j hj1 hj2
        have := p9 j hj1 hj2
        rwa [hpivot] at this
      · have := p10
        rwa [hpivot] at this

/-! Stage 5: facts about the conditional swaps of the median-of-three
prologue (`if arr[q] < arr[p] { swap(p, q) }` orders the pair `(p, q)`). -/

theorem condSwap_length (arr : List ℚ) (c : Prop) [Decidable c] (p q : ℕ) :
    (if c then swapE arr p q else arr).length = arr.length := by
  split_ifs <;> simp

theorem condSwap_perm (arr : List ℚ) (c : Prop) [Decidable c] (p q : ℕ)
    (hp : p < arr.length) (hq : q < arr.length) :
    (if c then swapE arr p q else arr).Perm arr := by
  split_ifs
  · exact swapE_perm arr p q hp hq
  · exact List.Perm.refl _

theorem condSwap_other (arr : List ℚ) (c : Prop) [Decidable c] {p q k : ℕ}
    (hpk : p ≠ k) (hqk : q ≠ k) :
    getE (if c then swapE arr p q else arr) k = getE arr k := by
  split_ifs
  · exact getE_swapE_other _ hpk hqk
  · rfl

theorem condSwap_ordered (arr : List ℚ) (p q : ℕ) (hp : p < arr.length)
    (hq : q < arr.length) (hpq : p ≠ q) :
    getE (if getE arr q < getE arr p then swapE arr p q else arr) p ≤
      getE (if getE arr q < getE arr p then swapE arr p q else arr) q := by
  split_ifs with hc
  · rw [getE_swapE_left _ hp hpq, getE_swapE_right _ _ _ hq]
    exact le_of_lt hc
  · exact not_lt.mp hc

theorem condSwap_upper (arr : List ℚ) (c : Prop) [Decidable c] {p q : ℕ}
    (hq : q < arr.length) (hc : c → getE arr q < getE arr p) :
    getE arr q ≤ getE (if c then swapE arr p q else arr) q := by
  split_ifs with h
  · rw [getE_swapE_right _ _ _ hq]
    exact le_of_lt (hc h)
  · exact le_refl _

theorem condSwap_q_le (arr : List ℚ) (c : Prop) [Decidable c] {p q : ℕ}
    (hq : q < arr.length) {bound : ℚ} (hbp : getE arr p ≤ bound)
    (hbq : getE arr q ≤ bound) :
    getE (if c then swapE arr p q else arr) q ≤ bound := by
  split_ifs
  · rw [getE_swapE_right _ _ _ hq]
    exact hbp
  · exact hbq

theorem prefixLe_condSwap {arr : List ℚ} {low : ℕ} (c : Prop) [Decidable c]
    {a b : ℕ} (h : PrefixLe arr low) (ha : low ≤ a) (hb : low ≤ b)
    (ha2 : a < arr.length) (hb2 : b < arr.length) :
    PrefixLe (if c then swapE arr a b else arr) low := by
  split_ifs
  · exact prefixLe_swap h ha hb ha2 hb2
  · exact h

theorem suffixGe_condSwap {arr : List ℚ} {low high : ℕ} (c : Prop)
    [Decidable c] {a b : ℕ} (h : SuffixGe arr low high) (ha : low ≤ a)
    (ha1 : a ≤ high) (hb : low ≤ b) (hb1 : b ≤ high) (ha2 : a < arr.length)
    (hb2 : b < arr.length) :
    SuffixGe (if c then swapE arr a b else arr) low high := by
  split_ifs
  · exact suffixGe_swap h ha ha1 hb hb1 ha2 hb2
  · exact h

theorem medianFixed_condSwap {arr : List ℚ} {median : ℕ} (c : Prop)
    [Decidable c] {a b : ℕ} (h : MedianFixed arr median)
    (hside : (a < median ∧ b < median) ∨ (median < a ∧ median < b))
    (ha2 : a < arr.length) (hb2 : b < arr.length) :
    MedianFixed (if c then swapE arr a b else arr) median := by
  split_ifs
  · exact medianFixed_swap h hside ha2 hb2
  · exact h

/-! Stage 6: correctness of the outer selection loop. -/

theorem suffixGe_mono_low {arr : List ℚ} {low low2 high : ℕ}
    (h : SuffixGe arr low high) (hl : low ≤ low2) :
    SuffixGe arr low2 high :=
  fun i j hi hi1 hj hj2 => h i j (le_trans hl hi) hi1 hj hj2

theorem selectLoop_spec (median : ℕ) :
    ∀ fuel arr low high,
    high < arr.length → median < arr.length →
    high - low < 2 * fuel →
    PrefixLe arr low → SuffixGe arr low high →
    ((low ≤ median ∧ median ≤ high) ∨
      ((median < low ∨ high < median) ∧ MedianFixed arr median)) →
    selectLoop median arr low high fuel = getE (sortedL arr) median := by
  intro fuel
  induction fuel with
  | zero =>
    intro arr low high hlen hmlen hfuel hP2 hP3 hD
    omega
  | succ fuel ih =>
    intro arr low high hlen hmlen hfuel hP2 hP3 hD
    rw [selectLoop]
    by_cases hc1 : high ≤ low
    · rw [if_pos hc1]
      refine (getE_sorted_of_pivot arr median hmlen ?_ ?_).symm
      · intro i hi
        rcases hD with ⟨hdl, hdh⟩ | ⟨_, hfix⟩
        · exact hP2 i median (by omega) (by omega) hmlen
        · exact hfix.1 i hi
      · intro j hj hj2
        rcases hD with ⟨hdl, hdh⟩ | ⟨_, hfix⟩
        · exact hP3 median j (by omega) (by omega) (by omega) hj2
        · exact hfix.2 j hj hj2
    · rw [if_neg hc1]
      by_cases hc2 : high = low + 1
      · rw [if_pos hc2]
        subst hc2
        have hlowlen : low < arr.length := by omega
        have hlow1len : low + 1 < arr.length := hlen
        rw [← apply_ite (fun l => getE l median)]
        have hperm : (if getE arr (low + 1) < getE arr low
            then swapE arr low (low + 1) else arr).Perm arr :=
          condSwap_perm arr _ low (low + 1) hlowlen hlow1len
        have hlenF : (if getE arr (low + 1) < getE arr low
            then swapE arr low (low + 1) else arr).length = arr.length :=
          condSwap_length arr _ low (low + 1)
        have hord : getE (if getE arr (low + 1) < getE arr low
              then swapE arr low (low + 1) else arr) low ≤
            getE (if getE arr (low + 1) < getE arr low
              then swapE arr low (low + 1) else arr) (low + 1) :=
          condSwap_ordered arr low (low + 1) hlowlen hlow1len (by omega)
        have hP2F : PrefixLe (if getE arr (low + 1) < getE arr low
            then swapE arr low (low + 1) else arr) low :=
          prefixLe_condSwap _ hP2 (le_refl _) (by omega) hlowlen hlow1len
        have hP3F : SuffixGe (if getE arr (low + 1) < getE arr low
            then swapE arr low (low + 1) else arr) low (low + 1) :=
          suffixGe_condSwap _ hP3 (le_refl _) (by omega) (by omega)
            (le_refl _) hlowlen hlow1len
        rw [sortedL_congr hperm.symm]
        refine (getE_sorted_of_pivot _ median (by omega) ?_ ?_).symm
        · intro i hi
          rcases hD with ⟨hdl, hdh⟩ | ⟨hout, hfix⟩
          · rcases Nat.eq_or_lt_of_le hdl with heq | hmlow
            · exact hP2F i median (by omega) (by omega) (by omega)
            · have hm : median = low + 1 := by omega
              rcases Nat.lt_or_ge i low with hil | hil
              · exact hP2F i median hil (by omega) (by omega)
              · have hieq : i = low := by omega
                subst hieq
                rw [hm]
                exact hord
          · exact (medianFixed_condSwap _ hfix
              (by rcases hout with h | h
                  · exact Or.inr ⟨by omega, by omega⟩
                  · exact Or.inl ⟨by omega, by omega⟩)
              hlowlen hlow1len).1 i hi
        · intro j hj hj2
          have hj3 : j < arr.length := hlenF ▸ hj2
          rcases hD with ⟨hdl, hdh⟩ | ⟨hout, hfix⟩
          · rcases Nat.eq_or_lt_of_le hdl with heq | hmlow
            · rcases Nat.lt_or_ge (low + 1) j with hjm | hjm
              · exact hP3F median j (by omega) (by omega) (by omega) hj2
              · have hjeq : j = low + 1 := by omega
                subst hjeq
                rw [← heq]
                exact hord
            · have hm : median = low + 1 := by omega
              rw [hm]
              exact hP3F (low + 1) j (by omega) (le_refl _) (by omega) hj2
          · exact (medianFixed_condSwap _ hfix
              (by rcases hout with h | h
                  · exact Or.inr ⟨by omega, by omega⟩
                  · exact Or.inl ⟨by omega, by omega⟩)
              hlowlen hlow1len).2 j hj hj2
      · rw [if_neg hc2]
        have hgap : low + 2 ≤ high := by omega
        simp only []
        set middle := (low + high) / 2 with hmiddef
        have hmid1 : low + 1 ≤ middle := by omega
        have hmid2 : middle + 1 ≤ high := by omega
        have hmidlen : middle < arr.length := by omega
        have hlowlen : low < arr.length := by omega
        have hlow1len : low + 1 < arr.length := by omega
        set a1 := (if getE arr high < getE arr middle
          then swapE arr middle high else arr) with ha1def
        have la1 : a1.length = arr.length := condSwap_length arr _ middle high
        have o1 : getE a1 middle ≤ getE a1 high :=
          condSwap_ordered arr middle high hmidlen hlen (by omega)
        set a2 := (if getE a1 high < getE a1 low
          then swapE a1 low high else a1) with ha2def
        have la2 : a2.length = arr.length := by
          rw [ha2def, condSwap_length, la1]
        have o2 : getE a2 low ≤ getE a2 high :=
          condSwap_ordered a1 low high (by omega) (by omega) (by omega)
        have m2mid : getE a2 middle = getE a1 middle :=
          condSwap_other a1 _ (by omega) (by omega)
        have up2 : getE a1 high ≤ getE a2 high :=
          condSwap_upper a1 _ (by omega) (fun h => h)
        set a3 := (if getE a2 low < getE a2 middle
          then swapE a2 middle low else a2) with ha3def
        have la3 : a3.length = arr.length := by
          rw [ha3def, condSwap_length, la2]
        have o3 : getE a3 middle ≤ getE a3 low :=
          condSwap_ordered a2 middle low (by omega) (by omega) (by omega)
        have keep3 : getE a3 high = getE a2 high :=
          condSwap_other a2 _ (by omega) (by omega)
        have q_le3 : getE a3 low ≤ getE a2 high :=
          condSwap_q_le a2 _ (by omega) (m2mid ▸ (o1.trans up2)) o2
        have hord : getE a3 low ≤ getE a3 high := by
          rw [keep3]
          exact q_le3
        set a4 := swapE a3 middle (low + 1) with ha4def
        have la4 : a4.length = arr.length := by
          rw [ha4def, length_swapE, la3]
        have v4a : getE a4 (low + 1) = getE a3 middle :=
          getE_swapE_right a3 middle (low + 1) (by omega)
        have v4b : getE a4 low = getE a3 low :=
          getE_swapE_other _ (by omega) (by omega)
        have v4c : getE a4 high = getE a3 high :=
          getE_swapE_other _ (by omega) (by omega)
        have h_lo4 : ∀ i, low < i → i ≤ low + 1 →
            getE a4 i ≤ getE a4 low := by
          intro i hi1 hi2
          have : i = low + 1 := by omega
          subst this
          rw [v4a, v4b]
          exact o3
        have h_hi4 : ∀ j, high ≤ j → j ≤ high →
            getE a4 low ≤ getE a4 j := by
          intro j hj1 hj2
          have : j = high := by omega
          subst this
          rw [v4b, v4c]
          exact hord
        have perm4 : a4.Perm arr := by
          refine (swapE_perm a3 middle (low + 1) (by omega) (by omega)).trans ?_
          rw [ha3def]
          refine (condSwap_perm a2 _ middle low (by omega) (by omega)).trans ?_
          rw [ha2def]
          refine (condSwap_perm a1 _ low high (by omega) (by omega)).trans ?_
          rw [ha1def]
          exact condSwap_perm arr _ middle high hmidlen hlen
        have hP2a3 : PrefixLe a3 low := by
          rw [ha3def]
          refine prefixLe_condSwap _ ?_ (by omega) (le_refl _) (by omega)
            (by omega)
          rw [ha2def]
          refine prefixLe_condSwap _ ?_ (le_refl _) (by omega) (by omega)
            (by omega)
          rw [ha1def]
          exact prefixLe_condSwap _ hP2 (by omega) (by omega) hmidlen hlen
        have hP2a4 : PrefixLe a4 low :=
          prefixLe_swap hP2a3 (by omega) (by omega) (by omega) (by omega)
        have hP3a3 : SuffixGe a3 low high := by
          rw [ha3def]
          refine suffixGe_condSwap _ ?_ (by omega) (by omega) (le_refl _)
            (by omega) (by omega) (by omega)
          rw [ha2def]
          refine suffixGe_condSwap _ ?_ (le_refl _) (by omega) (by omega)
            (le_refl _) (by omega) (by omega)
          rw [ha1def]
          exact suffixGe_condSwap _ hP3 (by omega) (by omega) (by omega)
            (le_refl _) hmidlen hlen
        have hP3a4 : SuffixGe a4 low high :=
          suffixGe_swap hP3a3 (by omega) (by omega) (by omega) (by omega)
            (by omega) (by omega)
        have hmedfix : (median < low ∨ high < median) →
            MedianFixed arr median := by
          intro hmed
          rcases hD with ⟨h1, h2⟩ | ⟨_, hfix⟩
          · omega
          · exact hfix
        have sideLH : ∀ a b : ℕ, low ≤ a → a ≤ high → low ≤ b → b ≤ high →
            (median < low ∨ high < median) →
            ((a < median ∧ b < median) ∨ (median < a ∧ median < b)) := by
          intro a b h1 h2 h3 h4 hmed
          rcases hmed with h | h
          · exact Or.inr ⟨by omega, by omega⟩
          · exact Or.inl ⟨by omega, by omega⟩
        have hP4a4 : (median < low ∨ high < median) →
            MedianFixed a4 median := by
          intro hmed
          refine medianFixed_swap ?_
            (sideLH middle (low + 1) (by omega) (by omega) (by omega)
              (by omega) hmed) (by omega) (by omega)
          rw [ha3def]
          refine medianFixed_condSwap _ ?_
            (sideLH middle low (by omega) (by omega) (le_refl _) (by omega)
              hmed) (by omega) (by omega)
          rw [ha2def]
          refine medianFixed_condSwap _ ?_
            (sideLH low high (le_refl _) (by omega) (by omega) (le_refl _)
              hmed) (by omega) (by omega)
          rw [ha1def]
          exact medianFixed_condSwap _ (hmedfix hmed)
            (sideLH middle high (by omega) (by omega) (by omega) (le_refl _)
              hmed) hmidlen hlen
        obtain ⟨⟨p1, p2, p3, p4, p5, p6, p7, p8, p9, p10, p11, p12, p13⟩,
            pll⟩ :=
          partitionLoop_spec low high median (a4.length + 1) a4 (low + 1)
            high (by omega) (by omega) (by omega) (by omega) (le_refl _)
            (by omega) h_lo4 h_hi4 hP2a4 hP3a4 hP4a4
        set r := partitionLoop low a4 (low + 1) high (a4.length + 1)
          with hrdef
        have hr1len : r.1.length = arr.length := by
          rw [p2, la4]
        have hllP : low + 2 ≤ r.2.1 := by omega
        have hplow : getE r.1 low = getE a4 low := p3 low (Or.inl (le_refl _))
        set arrB := swapE r.1 low r.2.2 with harrBdef
        have lenB : arrB.length = arr.length := by
          rw [harrBdef, length_swapE, hr1len]
        have hlowlenB : low < r.1.length := by omega
        have hhPlenB : r.2.2 < r.1.length := by omega
        have permB : arrB.Perm arr :=
          ((swapE_perm r.1 low r.2.2 hlowlenB hhPlenB).trans p1).trans perm4
        have f0 : getE arrB r.2.2 = getE a4 low := by
          rw [harrBdef, getE_swapE_right _ _ _ hhPlenB]
          exact hplow
        have f1 : ∀ i, low ≤ i → i < r.2.1 → getE arrB i ≤ getE a4 low := by
          intro i hi1 hi2
          rcases eq_or_ne i r.2.2 with heq | hne
          · rw [heq, f0]
          · rcases Nat.eq_or_lt_of_le hi1 with heq2 | hilow
            · rw [← heq2]
              rw [← heq2] at hne
              rw [harrBdef, getE_swapE_left _ hlowlenB hne]
              exact p10
            · have hne2 : low ≠ i := by omega
              rw [harrBdef, getE_swapE_other _ hne2 (Ne.symm hne)]
              exact p8 i hilow hi2
        have f2 : ∀ j, r.2.2 ≤ j → j ≤ high → getE a4 low ≤ getE arrB j := by
          intro j hj1 hj2
          rcases eq_or_ne j r.2.2 with heq | hne
          · rw [heq, f0]
          · have hjhh : r.2.2 < j := by omega
            have hne1 : low ≠ j := by omega
            rw [harrBdef, getE_swapE_other _ hne1 (Ne.symm hne)]
            exact p9 j hjhh hj2
        have hP2B : PrefixLe arrB low :=
          prefixLe_swap p11 (le_refl _) p6 hlowlenB hhPlenB
        have hP3B : SuffixGe arrB low high :=
          suffixGe_swap p12 (le_refl _) (by omega) p6 (by omega) hlowlenB
            hhPlenB
        have hP4B : (median < low ∨ high < median) →
            MedianFixed arrB median := by
          intro hmed
          exact medianFixed_swap (p13 hmed)
            (sideLH low r.2.2 (le_refl _) (by omega) p6 (by omega) hmed)
            hlowlenB hhPlenB
        have G1 : PrefixLe arrB r.2.1 := by
          intro i j hi hj hjlen
          rw [lenB] at hjlen
          rcases Nat.lt_or_ge i low with hil | hil
          · exact hP2B i j hil (by omega) (by rw [lenB]; exact hjlen)
          · have hiv := f1 i hil hi
            rcases le_or_lt j high with hjh | hjh
            · exact hiv.trans (f2 j (by omega) hjh)
            · exact hP3B i j hil (by omega) hjh (by rw [lenB]; exact hjlen)
        have G2 : SuffixGe arrB low (r.2.2 - 1) := by
          intro i j hi hi1 hj hj2
          rw [lenB] at hj2
          have hiv : getE arrB i ≤ getE a4 low := f1 i hi (by omega)
          rcases le_or_lt j high with hjh | hjh
          · exact hiv.trans (f2 j (by omega) hjh)
          · exact hP3B i j hi (by omega) hjh (by rw [lenB]; exact hj2)
        have G3 : r.2.2 ≤ median → median < r.2.1 →
            MedianFixed arrB median := by
          intro hm1 hm2
          have hmlow : low ≤ median := le_trans p6 hm1
          have hmhigh : median ≤ high := by omega
          have hmedval : getE arrB median = getE a4 low :=
            le_antisymm (f1 median hmlow hm2) (f2 median hm1 hmhigh)
          constructor
          · intro i hi
            rcases Nat.lt_or_ge i low with hil | hil
            · exact hP2B i median hil hmlow (by rw [lenB]; exact hmlen)
            · rw [hmedval]
              exact f1 i hil (by omega)
          · intro j hj hjlen
            rw [lenB] at hjlen
            rcases le_or_lt j high with hjh | hjh
            · rw [hmedval]
              exact f2 j (by omega) hjh
            · exact hP3B median j hmlow hmhigh hjh
                (by rw [lenB]; exact hjlen)
        have hA : (if median ≤ r.2.2 then r.2.2 - 1 else high) <
            arrB.length := by
          rw [lenB]
          split_ifs <;> omega
        have hB : median < arrB.length := by
          rw [lenB]
          exact hmlen
        have hC : (if median ≤ r.2.2 then r.2.2 - 1 else high) -
            (if r.2.2 ≤ median then r.2.1 else low) < 2 * fuel := by
          split_ifs <;> omega
        have hDn : PrefixLe arrB (if r.2.2 ≤ median then r.2.1 else low) := by
          split_ifs with h
          · exact G1
          · exact hP2B
        have hEn : SuffixGe arrB (if r.2.2 ≤ median then r.2.1 else low)
            (if median ≤ r.2.2 then r.2.2 - 1 else high) := by
          split_ifs with h1 h2
          · exact suffixGe_mono_low G2 (by omega)
          · exact suffixGe_mono_low hP3B (by omega)
          · exact G2
          · omega
        have hFn : ((if r.2.2 ≤ median then r.2.1 else low) ≤ median ∧
              median ≤ (if median ≤ r.2.2 then r.2.2 - 1 else high)) ∨
            ((median < (if r.2.2 ≤ median then r.2.1 else low) ∨
              (if median ≤ r.2.2 then r.2.2 - 1 else high) < median) ∧
              MedianFixed arrB median) := by
          by_cases hm1 : r.2.2 ≤ median <;> by_cases hm2 : median ≤ r.2.2
          · rw [if_pos hm1, if_pos hm2]
            exact Or.inr ⟨Or.inl (by omega), G3 hm1 (by omega)⟩
          · rw [if_pos hm1, if_neg hm2]
            by_cases hin : median < r.2.1
            · exact Or.inr ⟨Or.inl hin, G3 hm1 hin⟩
            · by_cases hhigh : median ≤ high
              · exact Or.inl ⟨by omega, hhigh⟩
              · exact Or.inr ⟨Or.inr (by omega), hP4B (Or.inr (by omega))⟩
          · rw [if_neg hm1, if_pos hm2]
            rcases hD with ⟨h1, h2⟩ | ⟨hout, _⟩
            · exact Or.inl ⟨by omega, by omega⟩
            · refine Or.inr ⟨?_, hP4B hout⟩
              rcases hout with h | h
              · exact Or.inl (by omega)
              · exact Or.inr (by omega)
          · omega
        have hres := ih arrB (if r.2.2 ≤ median then r.2.1 else low)
          (if median ≤ r.2.2 then r.2.2 - 1 else high) hA hB hC hDn hEn hFn
        rw [hres, sortedL_congr permB]

/-- On a nonempty buffer, `FvecMedian` returns the order statistic of rank
`(length - 1) / 2` of the ascending sort (the lower middle element). -/
theorem fvecMedian_orderStat (l : List ℚ) (hl : l ≠ []) :
    FvecMedian l = getE (sortedL l) ((l.length - 1) / 2) := by
  have hlen : 0 < l.length := List.length_pos.mpr hl
  rw [FvecMedian, if_neg (by omega)]
  apply selectLoop_spec
  · omega
  · omega
  · omega
  · intro i j hi _ _
    omega
  · intro i j _ _ hj hj2
    omega
  · exact Or.inl ⟨Nat.zero_le _, by omega⟩

/-- C2 (amended): on a nonempty buffer, `FvecMedian` computes the element of
rank `(n - 1) / 2` of the sorted data (the lower of the two middle elements),
which coincides with the true median only for odd lengths; for odd `n` it
agrees with `MedianSimple` exactly. -/
theorem fvecMedian_lower_middle (l : List ℚ) (hl : l ≠ []) :
    FvecMedian l = getE (sortedL l) ((l.length - 1) / 2) ∧
    (l.length % 2 = 1 → FvecMedian l = MedianSimple l) := by
  have hn : 0 < l.length := List.length_pos.mpr hl
  refine ⟨fvecMedian_orderStat l hl, fun hodd => ?_⟩
  rw [fvecMedian_orderStat l hl, MedianSimple, if_neg (by omega)]
  simp only []
  rw [if_neg (by omega)]
  congr 1
  omega

/-- Witness for the amended C2 theorem at the concrete odd-length buffer
`[3, 1, 2]`. -/
theorem fvecMedian_lower_middle_witness :
    FvecMedian [3, 1, 2] = getE (sortedL [3, 1, 2])
      ((([3, 1, 2] : List ℚ).length - 1) / 2) ∧
    (([3, 1, 2] : List ℚ).length % 2 = 1 →
      FvecMedian [3, 1, 2] = MedianSimple [3, 1, 2]) :=
  fvecMedian_lower_middle [3, 1, 2] (List.cons_ne_nil _ _)

end GoAubio
